import Mathlib

/-!
Verification development for `paddleslim/prune/pruner.py`.

The Python source is shallowly embedded as executable Lean definitions:

* machine floats in ratios are modelled as exact rationals `rnum/rden`
  (a pair of naturals), and Python-2 `int(round(x))` on a nonnegative
  rational as `⌊x + 1/2⌋`;
* numpy arrays are modelled as rectangular nested lists of integers; every
  call site of `_prune_tensor` prunes at axis 0 or axis 1, so a tensor is
  flattened to three nesting levels: axis 0 (outer), axis 1 (middle), all
  trailing axes (inner, flattened);
* `numpy.argsort` on the per-channel scores is modelled as a stable sort,
  i.e. sorting the channel indices by the lexicographic order
  (score, original index);
* Python exceptions (`IndexError` on an out-of-range mask index or list
  subscript, `UnboundLocalError`/`TypeError`/`AttributeError` on misuse of
  an unbound or `None` value, failed `assert`) are modelled as
  `Except.error ()`; an uncaught exception aborts the whole call;
* the mutable interpreter state (the cloned graph, the value scope, the
  per-axis pruned-name registry `self.pruned_list`, the two backup maps and
  the error log) is threaded explicitly through a `PState` record;
* unbounded `while` loops and the re-entrant recursion of `_prune_ops`
  through `concat` are given explicit fuel; the fuel bounds chosen at the
  top level are sufficient for every terminating Python run reachable in
  the claims, and fuel exhaustion (modelling Python nontermination on
  pathological cyclic graphs) is an error;
* the external graph abstraction (`GraphWrapper`, `OpWrapper`,
  `VarWrapper`, `Scope` from `paddleslim.core`, which is not part of the
  sources) is modelled from the spec's interface section: operators have a
  stable identity, a type tag, named input slots, output lists and
  backward/optimizer flags; variables have a name, a shape and
  parameter/persistable flags; `nextOps`/`preOps` are consumer/producer
  adjacency; the scope is a name-indexed store of tensor values.
-/

set_option synthInstance.maxSize 512

deriving instance DecidableEq for Except

namespace Pslim

/-- One axis-0 slice (a "channel") of a tensor: the axis-1 entries, each a
flattened list of all trailing-axis values. -/
abbrev Chan := List (List Int)

/-- A tensor value: list of axis-0 channels. -/
abbrev Tensor := List Chan

/-- Sum of absolute values of one channel: the `l1_norm` score that
`_cal_pruned_idx` (line 640) computes per channel by reducing
`np.sum(np.abs(param))` over every axis except the pruned axis. -/
def chanAbs (c : Chan) : Nat := (c.map (fun r => (r.map Int.natAbs).sum)).sum

/-- Per-channel l1 scores of a parameter tensor (axis = 0, as at the only
call site, line 129). -/
def l1Scores (t : Tensor) : List Nat := t.map chanAbs

/-- `int(round(n * ratio))` (lines 111 and 637) for `ratio = rnum/rden`:
Python-2 `round` is round-half-away-from-zero, which on a nonnegative
rational `x` is `⌊x + 1/2⌋`; `⌊n·rnum/rden + 1/2⌋ = (2·n·rnum + rden) / (2·rden)`
in natural division. -/
def pruneNum (n rnum rden : Nat) : Nat := (2 * n * rnum + rden) / (2 * rden)

/-- Sorting key order used to model `criterions.argsort()` (line 641): index
`i` precedes index `j` when its score is smaller, ties broken by the
original index (stable sort). -/
def scoreRel (s : List Nat) (i j : Nat) : Prop :=
  s.getD i 0 < s.getD j 0 ∨ (s.getD i 0 = s.getD j 0 ∧ i ≤ j)

instance (s : List Nat) : DecidableRel (scoreRel s) := fun i j => by
  unfold scoreRel; infer_instance

/-- `criterions.argsort()` (line 641): the channel indices sorted ascending
by score, ties by ascending original index. -/
def argsort (s : List Nat) : List Nat :=
  List.insertionSort (scoreRel s) (List.range s.length)

/-- `_cal_pruned_idx` (lines 624-642) at its only call-site axis 0:
`prune_num = int(round(shape[0]*ratio))`; for criterion `"l1_norm"` the
per-channel abs-sum scores are argsorted and the first `prune_num` indices
returned.  For any other criterion the local `criterions` is never bound
and line 641 raises `UnboundLocalError`, modelled as an error. -/
def calPrunedIdx (criterion : String) (t : Tensor) (rnum rden : Nat) :
    Except Unit (List Nat) :=
  let k := pruneNum t.length rnum rden
  if criterion = "l1_norm" then .ok ((argsort (l1Scores t)).take k)
  else .error ()

/-- Zero out a whole channel, as `lazy_func` (lines 663-665) does to every
masked position of every lane along the pruned axis. -/
def zeroChan (c : Chan) : Chan := c.map (fun r => r.map (fun _ => 0))

/-- Remove the elements whose position (counting from `i`) is in `idxs`:
the effect of `data[~mask]` (lines 660-661) on one axis. -/
def removeIdxFrom (idxs : List Nat) : Nat → List α → List α
  | _, [] => []
  | i, c :: cs =>
      if i ∈ idxs then removeIdxFrom idxs (i + 1) cs
      else c :: removeIdxFrom idxs (i + 1) cs

/-- Replace by `zero` the elements whose position (counting from `i`) is in
`idxs`: the effect of `data[mask] = 0` (lines 663-665) on one axis. -/
def zeroIdxFrom (zero : α → α) (idxs : List Nat) : Nat → List α → List α
  | _, [] => []
  | i, c :: cs =>
      (if i ∈ idxs then zero c else c) :: zeroIdxFrom zero idxs (i + 1) cs

/-- `_prune_tensor` (lines 644-670).  `mask = np.zeros(shape[axis]);
mask[pruned_idx] = True` raises `IndexError` when an index is out of range
for the pruned axis (the error caught at line 143); otherwise hard mode
removes, and lazy mode zeroes, the slices at the masked positions of the
pruned axis.  Call sites use axis 0 and axis 1 only; for axis 1 the mask
length `tensor.shape[1]` is the (rectangular) middle-level length. -/
def pruneTensor (t : Tensor) (idxs : List Nat) (axis : Nat) (lazy : Bool) :
    Except Unit Tensor :=
  match axis with
  | 0 =>
      if idxs.all (· < t.length) then
        .ok (if lazy then zeroIdxFrom zeroChan idxs 0 t else removeIdxFrom idxs 0 t)
      else .error ()
  | 1 =>
      let m := (t.headD []).length
      if idxs.all (· < m) then
        .ok (t.map (fun c =>
          if lazy then zeroIdxFrom (fun r => r.map (fun _ => 0)) idxs 0 c
          else removeIdxFrom idxs 0 c))
      else .error ()
  | _ => .error ()

/-- Axis-0 dimension of a tensor value. -/
def dim0 (t : Tensor) : Nat := t.length

/-- Axis-1 dimension of a (rectangular) tensor value. -/
def dim1 (t : Tensor) : Nat := (t.headD []).length

/-- A channel is entirely zero. -/
def chanIsZero (c : Chan) : Prop := ∀ r ∈ c, ∀ x ∈ r, x = (0 : Int)

instance (c : Chan) : Decidable (chanIsZero c) := by
  unfold chanIsZero; infer_instance

/-- The `Pruner` object: `__init__` (lines 28-34) stores the criterion
string without any validation. -/
structure Pruner where
  criterion : String
deriving DecidableEq

/-- `Pruner.__init__` (lines 28-34): construction always succeeds and merely
records the criterion. -/
def prunerInit (criterion : String) : Pruner := ⟨criterion⟩

/-- A graph variable (`VarWrapper`): name, shape and flags.  Modelled from
the spec's external-interface section (the graph abstraction is not among
the sources). -/
structure Var where
  name : String
  shape : List Nat
  isParam : Bool
  isPersistable : Bool
deriving DecidableEq

/-- A graph operator (`OpWrapper`): stable identity `idx`, type tag, named
input slots `(slot, variable name)`, output variable names,
backward/optimizer flags and the `groups` attribute.  Modelled from the
spec's external-interface section. -/
structure Op where
  idx : Nat
  type : String
  ins : List (String × String)
  outs : List String
  isBwd : Bool
  isOpt : Bool
  groups : Nat
deriving DecidableEq

/-- `op.all_inputs()`: the input variables in slot order. -/
def Op.allInputs (o : Op) : List String := o.ins.map Prod.snd

/-- The graph (`GraphWrapper`): operator and variable registries.  Modelled
from the spec's external-interface section. -/
structure Graph where
  ops : List Op
  vars : List Var
deriving DecidableEq

/-- Variable lookup by name. -/
def Graph.var? (g : Graph) (n : String) : Option Var :=
  g.vars.find? (fun v => v.name == n)

/-- `graph.is_parameter(var)`. Modelled from the spec. -/
def Graph.isParameter (g : Graph) (n : String) : Bool :=
  ((g.var? n).map Var.isParam).getD false

/-- `graph.is_persistable(var)`. Modelled from the spec. -/
def Graph.isPersistable (g : Graph) (n : String) : Bool :=
  ((g.var? n).map Var.isPersistable).getD false

/-- `graph.next_ops(op)`: the operators consuming one of `op`'s outputs,
in registry order.  Modelled from the spec ("adjacency queries"). -/
def Graph.nextOps (g : Graph) (o : Op) : List Op :=
  g.ops.filter (fun o2 => o.outs.any (fun t => o2.allInputs.contains t))

/-- `graph.pre_ops(op)`: the operators producing one of `op`'s inputs.
Modelled from the spec ("adjacency queries"). -/
def Graph.preOps (g : Graph) (o : Op) : List Op :=
  g.ops.filter (fun o2 => o2.outs.any (fun t => o.allInputs.contains t))

/-- `var.set_shape(new_shape)`: update the named variable's shape. -/
def Graph.setShape (g : Graph) (n : String) (s : List Nat) : Graph :=
  { g with vars := g.vars.map (fun v => if v.name == n then { v with shape := s } else v) }

/-- `op.set_attr('groups', k)` (line 83): update the attribute of the
operator with the given identity. -/
def Graph.setGroups (g : Graph) (opIdx : Nat) (k : Nat) : Graph :=
  { g with ops := g.ops.map (fun o => if o.idx == opIdx then { o with groups := k } else o) }

/-- The value store (`fluid.Scope`): tensors by variable name.  Modelled
from the spec ("a mutable value store keyed by tensor name"). -/
abbrev Scope := List (String × Tensor)

/-- `scope.find_var(name).get_tensor()` as a partial lookup. -/
def Scope.find? (s : Scope) (n : String) : Option Tensor :=
  (List.find? (fun p => p.1 == n) s).map Prod.snd

/-- `tensor.set(value, place)`: replace the value stored under `n`. -/
def Scope.set (s : Scope) (n : String) (t : Tensor) : Scope :=
  s.map (fun p => if p.1 == n then (n, t) else p)

/-- Entries of the `param_backup` map: `np.array` snapshots in normal mode
(lines 133-136, 204-207), shape copies in `only_graph` mode (lines 114-116,
190-192). -/
abbrev BackupV := Tensor ⊕ List Nat

/-- The mutable state threaded through one `prune` invocation: the cloned
graph, the scope, the two registries `self.pruned_list[0]` and
`self.pruned_list[1]`, the optional backup maps, and the names logged by
`_logger.error` at line 144. -/
structure PState where
  graph : Graph
  scope : Scope
  pruned0 : List String
  pruned1 : List String
  paramBackup : Option (List (String × BackupV))
  shapeBackup : Option (List (String × List Nat))
  log : List String
deriving DecidableEq

/-- `self.pruned_list[axis]`: only axes 0 and 1 exist (line 535); any other
axis raises `IndexError`. -/
def PState.prunedAt (st : PState) (axis : Nat) : Except Unit (List String) :=
  match axis with
  | 0 => .ok st.pruned0
  | 1 => .ok st.pruned1
  | _ => .error ()

/-- `self.pruned_list[axis].append(name)` (lines 122, 158, 198, 222). -/
def PState.appendPruned (st : PState) (axis : Nat) (n : String) : PState :=
  match axis with
  | 0 => { st with pruned0 := st.pruned0 ++ [n] }
  | 1 => { st with pruned1 := st.pruned1 ++ [n] }
  | _ => st

/-- First-occurrence-only insertion into a backup map (`if name not in
backup: backup[name] = ...`). -/
def backupIns (m : Option (List (String × β))) (n : String) (v : β) :
    Option (List (String × β)) :=
  match m with
  | none => none
  | some l => if l.any (fun p => p.1 == n) then some l else some (l ++ [(n, v)])

/-- `scope.find_var(name).get_tensor()`: a missing variable makes
`find_var` return `None` and the attribute access raise. -/
def PState.findTensor (st : PState) (n : String) : Except Unit Tensor :=
  match Scope.find? st.scope n with
  | some t => .ok t
  | none => .error ()

/-- `param.shape()` through the graph; a name with no graph variable has no
wrapper and is an error. -/
def PState.varShape (st : PState) (n : String) : Except Unit (List Nat) :=
  match st.graph.var? n with
  | some v => .ok v.shape
  | none => .error ()

/-- `new_shape[axis] = v` on a Python list: `IndexError` when
`axis ≥ len(shape)`. -/
def setShapeAt (shape : List Nat) (axis : Nat) (v : Nat) : Except Unit (List Nat) :=
  if axis < shape.length then .ok (shape.set axis v) else .error ()

/-- `new_shape[axis] -= k` (lines 118, 194).  Natural subtraction truncates
at zero where Python would go negative; no claim depends on that corner. -/
def setShapeSub (shape : List Nat) (axis : Nat) (k : Nat) : Except Unit (List Nat) :=
  if axis < shape.length then .ok (shape.set axis (shape.getD axis 0 - k)) else .error ()

/-- `_get_accumulator` (lines 292-309): the persistable outputs, other than
the parameter itself, of the optimizer operators consuming the parameter. -/
def getAccumulator (g : Graph) (paramName : String) : List String :=
  (g.ops.filter (fun o => o.allInputs.contains paramName && o.isOpt)).flatMap
    (fun o => o.outs.filter (fun out => g.isPersistable out && out != paramName))

/-- One iteration of the normal-mode loop of `_prune_parameter_by_idx`
(lines 201-222): back up the value, prune the stored tensor (uncaught
`IndexError` aborts), write it back, back up and update the shape, record
the name in the registry. -/
def pruneByIdxOne (axis : Nat) (idxs : List Nat) (lazy : Bool)
    (st : PState) (n : String) : Except Unit PState := do
  let t ← st.findTensor n
  let st := { st with paramBackup := backupIns st.paramBackup n (Sum.inl t) }
  let t' ← pruneTensor t idxs axis lazy
  let st := { st with scope := Scope.set st.scope n t' }
  let shape ← st.varShape n
  let st := { st with shapeBackup := backupIns st.shapeBackup n shape }
  let newDim := match axis with | 0 => dim0 t' | _ => dim1 t'
  let shape' ← setShapeAt shape axis newDim
  let st := { st with graph := st.graph.setShape n shape' }
  .ok (st.appendPruned axis n)

/-- One iteration of the `only_graph` loop of `_prune_parameter_by_idx`
(lines 186-198): back up the shape (into the value-backup map, as the
source does), shrink the shape entry at the pruned axis by the number of
indices, record the name. -/
def pruneByIdxOneGraph (axis : Nat) (k : Nat) (st : PState) (n : String) :
    Except Unit PState := do
  let shape ← st.varShape n
  let st := { st with paramBackup := backupIns st.paramBackup n (Sum.inr shape) }
  let shape' ← setShapeSub shape axis k
  let st := { st with graph := st.graph.setShape n shape' }
  .ok (st.appendPruned axis n)

/-- `_prune_parameter_by_idx` (lines 161-222): skip when the primary
parameter is already registered at this axis; otherwise prune the whole
group (parameter plus accumulators). -/
def pruneParameterByIdx (st : PState) (params : List String) (idxs : List Nat)
    (axis : Nat) (lazy onlyGraph : Bool) : Except Unit PState := do
  match params with
  | [] => .error ()
  | primary :: _ =>
      let reg ← st.prunedAt axis
      if primary ∈ reg then .ok st
      else if onlyGraph then
        params.foldlM (pruneByIdxOneGraph axis idxs.length) st
      else
        params.foldlM (pruneByIdxOne axis idxs lazy) st

/-- One iteration of the normal-mode loop of `_prune_filters_by_ratio`
(lines 130-158), carrying the Python local `pruned_param` as `prev`.  On a
pruning `IndexError` the handler logs the parameter name (line 144) and the
code then *continues* at line 147, writing the stale `pruned_param` (the
previously pruned array) into the store; when no previous iteration bound
it, line 147 raises `UnboundLocalError`, aborting the call. -/
def ratioLoopOne (idxs : List Nat) (lazy : Bool)
    (acc : PState × Option Tensor) (n : String) :
    Except Unit (PState × Option Tensor) := do
  let (st, prev) := acc
  let t ← st.findTensor n
  let st := { st with paramBackup := backupIns st.paramBackup n (Sum.inl t) }
  match pruneTensor t idxs 0 lazy with
  | .ok t' => do
      let st := { st with scope := Scope.set st.scope n t' }
      let shape ← st.varShape n
      let st := { st with shapeBackup := backupIns st.shapeBackup n shape }
      let shape' ← setShapeAt shape 0 (dim0 t')
      let st := { st with graph := st.graph.setShape n shape' }
      .ok (st.appendPruned 0 n, some t')
  | .error _ =>
      let st := { st with log := st.log ++ [n] }
      match prev with
      | none => .error ()
      | some tp => do
          let st := { st with scope := Scope.set st.scope n tp }
          let shape ← st.varShape n
          let st := { st with shapeBackup := backupIns st.shapeBackup n shape }
          let shape' ← setShapeAt shape 0 (dim0 tp)
          let st := { st with graph := st.graph.setShape n shape' }
          .ok (st.appendPruned 0 n, some tp)

/-- `_prune_filters_by_ratio` (lines 86-159): skip (returning Python `None`)
when the primary name is registered at axis 0; in `only_graph` mode shrink
every shape by `round(shape[0]*ratio)` and return `range(pruned_num)`; in
normal mode select indices on the primary's stored value and prune the
whole group with them. -/
def pruneFiltersByRatio (criterion : String) (st : PState) (params : List String)
    (rnum rden : Nat) (lazy onlyGraph : Bool) :
    Except Unit (PState × Option (List Nat)) := do
  match params with
  | [] => .error ()
  | primary :: _ =>
      if primary ∈ st.pruned0 then .ok (st, none)
      else if onlyGraph then do
        let shape0 ← st.varShape primary
        match shape0 with
        | [] => .error ()
        | d :: _ => do
            let k := pruneNum d rnum rden
            let st ← params.foldlM (pruneByIdxOneGraph 0 k) st
            .ok (st, some (List.range k))
      else do
        let t ← st.findTensor primary
        let idxs ← calPrunedIdx criterion t rnum rden
        let (st, _) ← params.foldlM (ratioLoopOne idxs lazy) (st, (none : Option Tensor))
        .ok (st, some idxs)

/-- The start node of `_forward_search_related_op`: a variable
(`VarWrapper`) or an operator (`OpWrapper`). -/
inductive Node where
  | var : String → Node
  | op : Op → Node
deriving DecidableEq

/-- `_get_next_unvisited_op` (lines 275-290): the unvisited,
non-backward consumers of the operator's outputs. -/
def getNextUnvisitedOp (g : Graph) (visited : List Nat) (op : Op) : List Op :=
  (g.nextOps op).filter (fun o => !(visited.contains o.idx) && !o.isBwd)

/-- The shared push pattern of `_forward_search_related_op` (lines 244-248,
251-255, 266-271): each candidate still unvisited is appended to the FIFO
worklist and to the visit path and marked visited. -/
def pushOps : List Op → List Op × List Nat × List Op → List Op × List Nat × List Op
  | [], acc => acc
  | o :: os, (stack, visited, path) =>
      if visited.contains o.idx then pushOps os (stack, visited, path)
      else pushOps os (stack ++ [o], visited ++ [o.idx], path ++ [o])

/-- Whether a type tag stops the forward search (lines 260-263): exact
membership in `["conv2d", "deformable_conv"]` or `["mul", "concat"]`. -/
def isSearchBoundary (ty : String) : Bool :=
  ty == "conv2d" || ty == "deformable_conv" || ty == "mul" || ty == "concat"

/-- The `while` loop of `_forward_search_related_op` (lines 256-271): pop
the *front* of the worklist (`stack.pop(0)`, FIFO); a boundary-typed
operator contributes no successors; otherwise push its unvisited
non-backward consumers. -/
def fsLoop (g : Graph) : Nat → List Op → List Nat → List Op → List Op
  | 0, _, _, path => path
  | _ + 1, [], _, path => path
  | fuel + 1, top :: rest, visited, path =>
      if isSearchBoundary top.type then fsLoop g fuel rest visited path
      else
        let (s', v', p') := pushOps (getNextUnvisitedOp g visited top) (rest, visited, path)
        fsLoop g fuel s' v' p'

/-- The seeding phase of `_forward_search_related_op` for a variable start
node (lines 238-248): every non-backward operator consuming the variable is
expanded (and marked visited *after* its successors are computed), its
fresh successors entering worklist and path; the seed itself never enters
the path. -/
def fsInitVar (g : Graph) (name : String) : List Op × List Nat × List Op :=
  g.ops.foldl
    (fun acc op =>
      if !op.isBwd && op.allInputs.contains name then
        let (stack, visited, path) := acc
        let nexts := getNextUnvisitedOp g visited op
        pushOps nexts (stack, visited ++ [op.idx], path)
      else acc)
    ([], [], [])

/-- The seeding phase for an operator start node (lines 249-255): the start
operator's unvisited non-backward consumers are pushed; the start operator
itself is not marked. -/
def fsInitOp (g : Graph) (op : Op) : List Op × List Nat × List Op :=
  pushOps (getNextUnvisitedOp g [] op) ([], [], [])

/-- The visit path produced by the seeding phase alone. -/
def initPath (g : Graph) (node : Node) : List Op :=
  (match node with
   | .var n => fsInitVar g n
   | .op o => fsInitOp g o).2.2

/-- `_forward_search_related_op` (lines 224-273).  The fuel
`g.ops.length + 1` dominates the loop's iteration count: every iteration
pops one element, and at most one push per operator identity ever
happens. -/
def forwardSearchRelatedOp (g : Graph) (node : Node) : List Op :=
  let (stack, visited, path) :=
    match node with
    | .var n => fsInitVar g n
    | .op o => fsInitOp g o
  fsLoop g (g.ops.length + 1) stack visited path

/-- The loop shared by the `conv2d`/`deformable_conv` (lines 375-388),
`depthwise_conv2d` (389-402) and `elementwise_add` (403-417) branches of
`_prune_ops`: prune each parameter input (with its accumulators) at the
given axis. -/
def convLikePrune (axis : Nat) (idxs : List Nat) (lazy onlyGraph : Bool)
    (st : PState) (op : Op) : Except Unit PState :=
  op.allInputs.foldlM
    (fun st n =>
      if st.graph.isParameter n then
        pruneParameterByIdx st (n :: getAccumulator st.graph n) idxs axis lazy onlyGraph
      else .ok st)
    st

/-- `fc_param` of the `mul` branch (lines 419-425): the last parameter
input wins the loop. -/
def lastParamInput (g : Graph) (op : Op) : Option String :=
  (op.allInputs.filter (fun n => g.isParameter n)).getLast?

/-- `fc_input` of the `mul` branch: the last non-parameter input wins. -/
def lastNonParamInput (g : Graph) (op : Op) : Option String :=
  (op.allInputs.filter (fun n => !g.isParameter n)).getLast?

/-- The index expansion of the `mul` branch (lines 427-432): each incoming
channel index `i` becomes the block `range(S) + i*S`. -/
def mulExpandIdxs (S : Nat) (idxs : List Nat) : List Nat :=
  idxs.flatMap (fun i => (List.range S).map (fun j => j + i * S))

/-- The `mul` branch of `_prune_ops` (lines 418-441): a missing parameter
or feature-map input makes the later uses raise; `S` is
`fc_input.shape()[2] * fc_input.shape()[3]`; the weight group is pruned at
axis 0 with the expanded indices. -/
def mulPrune (idxs : List Nat) (lazy onlyGraph : Bool) (st : PState) (op : Op) :
    Except Unit PState := do
  match lastParamInput st.graph op, lastNonParamInput st.graph op with
  | some w, some x => do
      let xv ← (st.graph.var? x).elim (.error ()) .ok
      let s2 ← (xv.shape[2]?).elim (.error ()) .ok
      let s3 ← (xv.shape[3]?).elim (.error ()) .ok
      pruneParameterByIdx st (w :: getAccumulator st.graph w)
        (mulExpandIdxs (s2 * s3) idxs) 0 lazy onlyGraph
  | _, _ => .error ()

/-- The `batch_norm` branch of `_prune_ops` (lines 466-508): the first four
inputs are `beta, mean, alpha, variance`; `mean`, `variance`, `alpha`,
`beta` (in that order) are pruned at axis 0 with the incoming indices. -/
def bnPrune (idxs : List Nat) (lazy onlyGraph : Bool) (st : PState) (op : Op) :
    Except Unit PState := do
  match op.allInputs with
  | beta :: mean :: alpha :: variance :: _ => do
      let st ← pruneParameterByIdx st (mean :: getAccumulator st.graph mean) idxs 0 lazy onlyGraph
      let st ← pruneParameterByIdx st (variance :: getAccumulator st.graph variance) idxs 0 lazy onlyGraph
      let st ← pruneParameterByIdx st (alpha :: getAccumulator st.graph alpha) idxs 0 lazy onlyGraph
      pruneParameterByIdx st (beta :: getAccumulator st.graph beta) idxs 0 lazy onlyGraph
  | _ => .error ()

/-- The scan of the `concat` branch (lines 446-453): walk the visit path
backwards; the first operator (most recently visited) with an output among
the concat inputs determines the position (`concat_inputs.index`, first
occurrence) of that output among the concat inputs. -/
def findConcatPos : List Op → List String → Option Nat
  | [], _ => none
  | o :: os, cins =>
      match o.outs.find? (fun out => cins.contains out) with
      | some out => some (cins.indexOf out)
      | none => findConcatPos os cins

/-- The offset loop of the `concat` branch (lines 454-456): sum of
`shape()[1]` of the concat inputs before the matched position; a missing
variable or a shape without axis 1 raises. -/
def sumWidths (g : Graph) : List String → Except Unit Nat
  | [] => .ok 0
  | n :: ns => do
      let v ← (g.var? n).elim (.error ()) .ok
      match v.shape[1]? with
      | some w => do
          let rest ← sumWidths g ns
          .ok (w + rest)
      | none => .error ()

/-- `_prune_ops` (lines 372-508), fuelled: each recursive step (the next
operator of the list, or the re-entrant call of the `concat` branch, lines
458-465) consumes one unit.  The first parameter of each step is the whole
list the call received (`ops`), which the `concat` scan reads; `concat`
re-enters with the forward search from the concat operator and the
offset-shifted indices, `None` from a failed scan raising at
`range(None)`. -/
def pruneOpsGo (lazy onlyGraph : Bool) :
    Nat → List Op → List Op → List Nat → PState → Except Unit PState
  | 0, _, _, _, _ => .error ()
  | _ + 1, _, [], _, st => .ok st
  | fuel + 1, allOps, op :: rest, idxs, st => do
      let st ←
        if op.type == "conv2d" || op.type == "deformable_conv" then
          convLikePrune 1 idxs lazy onlyGraph st op
        else .ok st
      let st ←
        if op.type == "depthwise_conv2d" then
          convLikePrune 0 idxs lazy onlyGraph st op
        else if op.type == "elementwise_add" then
          convLikePrune 0 idxs lazy onlyGraph st op
        else if op.type == "mul" then
          mulPrune idxs lazy onlyGraph st op
        else if op.type == "concat" then
          match findConcatPos allOps.reverse op.allInputs with
          | none => .error ()
          | some p => do
              let off ← sumWidths st.graph (op.allInputs.take p)
              let related := forwardSearchRelatedOp st.graph (.op op)
              pruneOpsGo lazy onlyGraph fuel related related (idxs.map (fun x => x + off)) st
        else if op.type == "batch_norm" then
          bnPrune idxs lazy onlyGraph st op
        else .ok st
      pruneOpsGo lazy onlyGraph fuel allOps rest idxs st

/-- Fuel given to `_prune_ops` by its entry points; ample for every
terminating run on the graphs of this development. -/
def fprFuel (g : Graph) : Nat := (g.ops.length + 2) * (g.ops.length + 2)

/-- `_forward_pruning_ralated_params` (lines 311-370): skip when already
registered at axis 0; otherwise search the related operators, prune the
parameter group (by explicit indices, or by ratio — a `None` pruned-index
list from the unreachable ratio-path skip is modelled as the error its
downstream use would raise), and dispatch the related operators. -/
def forwardPruningRelatedParams (criterion : String) (st : PState)
    (paramName : String) (ratio : Option (Nat × Nat)) (prunedIdxs : Option (List Nat))
    (lazy onlyGraph : Bool) : Except Unit PState := do
  if st.pruned0.contains paramName then .ok st
  else
    let related := forwardSearchRelatedOp st.graph (.var paramName)
    match ratio with
    | none =>
        match prunedIdxs with
        | none => .error ()
        | some idxs => do
            let st ← pruneParameterByIdx st (paramName :: getAccumulator st.graph paramName)
              idxs 0 lazy onlyGraph
            pruneOpsGo lazy onlyGraph (fprFuel st.graph) related related idxs st
    | some r => do
        let res ← pruneFiltersByRatio criterion st
          (paramName :: getAccumulator st.graph paramName) r.1 r.2 lazy onlyGraph
        match res.2 with
        | none => .error ()
        | some idxs =>
            pruneOpsGo lazy onlyGraph (fprFuel res.1.graph) related related idxs res.1

/-- Substring containment, Python's `pat in s` on strings. -/
def strContains (s pat : String) : Bool :=
  (List.range (s.data.length + 1)).any (fun i => pat.data.isPrefixOf (s.data.drop i))

/-- The stack-seeding loop of `_search_brother_ops` (lines 585-591): push
the consumers that are not conv/concat/deformable/fc-like, not backward,
not optimizer. -/
def sbInit (g : Graph) (op : Op) : List Op × List Nat :=
  (g.nextOps op).foldl
    (fun (acc : List Op × List Nat) o =>
      if !(strContains o.type "conv2d") && !(strContains o.type "concat") &&
         !(strContains o.type "deformable_conv") && o.type != "fc" && !o.isBwd &&
         !o.isOpt then
        (acc.1 ++ [o], acc.2 ++ [o.idx])
      else acc)
    ([], [op.idx])

/-- The `while` loop of `_search_brother_ops` (lines 593-617): LIFO pop
(`stack.pop()`); unvisited non-backward non-optimizer producers that are
conv-like or fc become brothers, other producers are pushed; then
non-boundary unvisited consumers are pushed. -/
def sbLoop (g : Graph) : Nat → List Op → List Nat → List Op → List Op
  | 0, _, _, brothers => brothers
  | fuel + 1, stack, visited, brothers =>
      match stack.getLast? with
      | none => brothers
      | some top =>
          let stack := stack.dropLast
          let acc :=
            (g.preOps top).foldl
              (fun (acc : List Op × List Nat × List Op) parent =>
                let (stack, visited, brothers) := acc
                if !(visited.contains parent.idx) && !parent.isBwd && !parent.isOpt then
                  if strContains parent.type "conv2d" ||
                     strContains parent.type "deformable_conv" || parent.type == "fc" then
                    (stack, visited ++ [parent.idx], brothers ++ [parent])
                  else (stack ++ [parent], visited ++ [parent.idx], brothers)
                else acc)
              (stack, visited, brothers)
          let (stack, visited, brothers) := acc
          let acc2 :=
            (g.nextOps top).foldl
              (fun (acc2 : List Op × List Nat) child =>
                if !(strContains child.type "conv2d") && !(strContains child.type "concat") &&
                   !(strContains child.type "deformable_conv") && child.type != "fc" &&
                   !(acc2.2.contains child.idx) && !child.isBwd && !child.isOpt then
                  (acc2.1 ++ [child], acc2.2 ++ [child.idx])
                else acc2)
              (stack, visited)
          sbLoop g fuel acc2.1 acc2.2 brothers

/-- `_search_brother_ops` (lines 571-622). -/
def searchBrotherOps (g : Graph) (op : Op) : List Op :=
  let (stack, visited) := sbInit g op
  sbLoop g (g.ops.length + 1) stack visited []

/-- `graph.get_param_by_op(op)`: the parameter inputs of the operator.
Modelled from the spec. -/
def getParamByOp (g : Graph) (op : Op) : List String :=
  op.allInputs.filter (fun n => g.isParameter n)

/-- The sibling-propagation block of `_prune_parameters` (lines 553-569):
for every conv-like consumer of the pruned parameter, recursively prune
the parameters of each brother operator with the same ratio. -/
def siblingPrune (criterion : String) (r : Nat × Nat) (lazy onlyGraph : Bool)
    (paramName : String) (st : PState) : Except Unit PState :=
  (st.graph.ops.filter (fun o => o.allInputs.contains paramName)).foldlM
    (fun st op =>
      if op.type == "conv2d" || op.type == "deformable_conv" then
        (searchBrotherOps st.graph op).foldlM
          (fun st bro =>
            (getParamByOp st.graph bro).foldlM
              (fun st q =>
                forwardPruningRelatedParams criterion st q (some r) none lazy onlyGraph)
              st)
          st
      else .ok st)
    st

/-- `_prune_parameters` (lines 510-569): `len(params) == len(ratios)` is
asserted; the registry is reset fresh (line 535); each requested name is
skipped when already pruned at axis 0, otherwise resolved in the graph
(a lookup error aborts), pruned with propagation, and then sibling
propagation runs with the same ratio. -/
def pruneParameters (criterion : String) (st0 : PState) (params : List String)
    (ratios : List (Nat × Nat)) (lazy onlyGraph : Bool) : Except Unit PState := do
  if params.length ≠ ratios.length then .error ()
  else
    let st := { st0 with pruned0 := [], pruned1 := [] }
    (params.zip ratios).foldlM
      (fun st pr =>
        if st.pruned0.contains pr.1 then .ok st
        else do
          let _ ← (st.graph.var? pr.1).elim (.error ()) .ok
          let st ← forwardPruningRelatedParams criterion st pr.1 (some pr.2) none lazy onlyGraph
          siblingPrune criterion pr.2 lazy onlyGraph pr.1 st)
      st

/-- The two depthwise type tags handled by the post-pass (lines 81-82). -/
def isDW (ty : String) : Bool :=
  ty == "depthwise_conv2d" || ty == "depthwise_conv2d_grad"

/-- `op.inputs('Filter')[0]`: the first variable of the `Filter` slot. -/
def filterInput (op : Op) : Option String :=
  ((op.ins.filter (fun p => p.1 == "Filter")).map Prod.snd).head?

/-- One iteration of the depthwise post-pass of `prune` (lines 80-83): for a
`depthwise_conv2d` or `depthwise_conv2d_grad` operator, set its `groups`
attribute to `op.inputs('Filter')[0].shape()[0]` (a missing `Filter` input
or an empty shape raises). -/
def postPassStep (acc : Graph) (op : Op) : Except Unit Graph :=
  if isDW op.type then
    match (op.ins.filter (fun p => p.1 == "Filter")).map Prod.snd with
    | [] => .error ()
    | f :: _ => do
        let v ← (acc.var? f).elim (.error ()) .ok
        match v.shape with
        | [] => .error ()
        | d :: _ => .ok (acc.setGroups op.idx d)
  else .ok acc

/-- The depthwise post-pass loop of `prune` (lines 80-83). -/
def postPass (g : Graph) : Except Unit Graph :=
  g.ops.foldlM postPassStep g

/-- The body of `prune` (lines 36-84) acting on one graph value: build the
fresh state (registries empty, backup maps allocated when requested), run
`_prune_parameters`, then the depthwise post-pass. -/
def pruneGraph (criterion : String) (g : Graph) (scope : Scope)
    (params : List String) (ratios : List (Nat × Nat))
    (lazy onlyGraph buVal buShape : Bool) :
    Except Unit (Graph × Scope × Option (List (String × BackupV)) ×
      Option (List (String × List Nat)) × List String) := do
  let st0 : PState :=
    { graph := g, scope := scope, pruned0 := [], pruned1 := [],
      paramBackup := if buVal then some [] else none,
      shapeBackup := if buShape then some [] else none, log := [] }
  let st ← pruneParameters criterion st0 params ratios lazy onlyGraph
  let g' ← postPass st.graph
  .ok (g', st.scope, st.paramBackup, st.shapeBackup, st.log)

/-- `Pruner.prune` (lines 36-84) with program identity made explicit: the
caller-visible programs live in a store, `program.clone()` (line 67)
appends a copy, every graph mutation acts on that copy, and the clone is
what `graph.program` returns (line 84).  Only the scope is shared. -/
def prune (criterion : String) (programs : List Graph) (progIdx : Nat)
    (scope : Scope) (params : List String) (ratios : List (Nat × Nat))
    (lazy onlyGraph buVal buShape : Bool) :
    Except Unit (List Graph × Nat × Scope × Option (List (String × BackupV)) ×
      Option (List (String × List Nat)) × List String) := do
  let g ← (programs[progIdx]?).elim (.error ()) .ok
  let res ← pruneGraph criterion g scope params ratios lazy onlyGraph buVal buShape
  .ok (programs ++ [res.1], programs.length, res.2.1, res.2.2.1, res.2.2.2.1, res.2.2.2.2)

/-! ### Concrete fixtures used by witnesses and counterexamples -/

/-- A depthwise-convolution operator whose `groups` attribute (7) disagrees
with its filter's axis-0 size (4) before the post-pass. -/
def dwOp : Op :=
  { idx := 0, type := "depthwise_conv2d", ins := [("Filter", "f"), ("Input", "x")],
    outs := ["y"], isBwd := false, isOpt := false, groups := 7 }

/-- The filter variable of `dwOp`. -/
def dwFilterVar : Var :=
  { name := "f", shape := [4, 1, 3, 3], isParam := true, isPersistable := true }

/-- A one-operator depthwise graph. -/
def dwGraph : Graph := { ops := [dwOp], vars := [dwFilterVar] }

/-- `dwGraph` after the post-pass set `groups` to the filter's axis-0
size. -/
def dwGraphFixed : Graph := { ops := [{ dwOp with groups := 4 }], vars := [dwFilterVar] }

/-- A producer operator feeding the second input of `concatOp`. -/
def concatProducerOp : Op :=
  { idx := 0, type := "relu", ins := [("X", "u")], outs := ["i2"],
    isBwd := false, isOpt := false, groups := 0 }

/-- A concatenation operator with inputs of axis-1 widths 4, 6 and 5. -/
def concatOp : Op :=
  { idx := 1, type := "concat", ins := [("X", "i1"), ("X", "i2"), ("X", "i3")],
    outs := ["cc"], isBwd := false, isOpt := false, groups := 0 }

/-- The graph of the concat fixture. -/
def concatGraph : Graph :=
  { ops := [concatProducerOp, concatOp],
    vars := [{ name := "i1", shape := [1, 4], isParam := false, isPersistable := false },
             { name := "i2", shape := [1, 6], isParam := false, isPersistable := false },
             { name := "i3", shape := [1, 5], isParam := false, isPersistable := false }] }

/-- Pruning state over `concatGraph`. -/
def concatState : PState :=
  { graph := concatGraph, scope := [], pruned0 := [], pruned1 := [],
    paramBackup := none, shapeBackup := none, log := [] }

/-- The weight parameter of the `mul` fixture. -/
def fcW : Var := { name := "w", shape := [36, 10], isParam := true, isPersistable := true }

/-- The 4-D feature map of the `mul` fixture, spatial size 3×3. -/
def fcX : Var := { name := "xf", shape := [1, 4, 3, 3], isParam := false, isPersistable := false }

/-- A fully-connected (`mul`) operator. -/
def mulOp : Op :=
  { idx := 0, type := "mul", ins := [("X", "xf"), ("Y", "w")], outs := ["o"],
    isBwd := false, isOpt := false, groups := 0 }

/-- The graph of the `mul` fixture. -/
def mulGraph : Graph := { ops := [mulOp], vars := [fcW, fcX] }

/-- Pruning state over `mulGraph`. -/
def mulState : PState :=
  { graph := mulGraph, scope := [], pruned0 := [], pruned1 := [],
    paramBackup := none, shapeBackup := none, log := [] }

/-- A parameter variable for the registry-idempotence witness. -/
def pVar : Var := { name := "p", shape := [2, 1, 1], isParam := true, isPersistable := true }

/-- A minimal graph holding `pVar`. -/
def pGraph : Graph := { ops := [], vars := [pVar] }

/-- A pruning state holding a two-channel tensor for `"p"`. -/
def pstC7 : PState :=
  { graph := pGraph, scope := [("p", [[[1]], [[2]]])], pruned0 := [], pruned1 := [],
    paramBackup := none, shapeBackup := none, log := [] }

/-- An accumulator-like parameter with a single channel, smaller than the
index selected from `"p"`. -/
def aVar : Var := { name := "a", shape := [1, 1, 1], isParam := true, isPersistable := true }

/-- State for the catch-and-continue demonstration: `"p"` has channels of l1
scores `[5, 1]` (ratio `1/2` selects index 1) and `"a"` has only one
channel. -/
def st9 : PState :=
  { graph := { ops := [], vars := [pVar, aVar] },
    scope := [("p", [[[5]], [[1]]]), ("a", [[[0]]])],
    pruned0 := [], pruned1 := [], paramBackup := none, shapeBackup := none, log := [] }

/-- Filter of the first convolution of the abort counterexample: channel 1
has the smaller l1 score, so ratio `1/2` selects index 1. -/
def w1Var : Var := { name := "w1", shape := [2, 1, 1, 1], isParam := true, isPersistable := true }

/-- Filter of the downstream convolution, with only one input channel. -/
def w2Var : Var := { name := "w2", shape := [1, 1, 1, 1], isParam := true, isPersistable := true }

/-- An unrelated second requested parameter, never reached. -/
def w3Var : Var := { name := "w3", shape := [1, 1, 1, 1], isParam := true, isPersistable := true }

/-- First convolution, consuming `w1`. -/
def convA : Op :=
  { idx := 0, type := "conv2d", ins := [("Filter", "w1"), ("Input", "x")],
    outs := ["y"], isBwd := false, isOpt := false, groups := 1 }

/-- Downstream convolution, consuming `convA`'s output and `w2`. -/
def convB : Op :=
  { idx := 1, type := "conv2d", ins := [("Filter", "w2"), ("Input", "y")],
    outs := ["z"], isBwd := false, isOpt := false, groups := 1 }

/-- The graph of the abort counterexample. -/
def g9 : Graph :=
  { ops := [convA, convB],
    vars := [w1Var, w2Var, w3Var,
             { name := "x", shape := [1, 2, 4, 4], isParam := false, isPersistable := false },
             { name := "y", shape := [1, 2, 4, 4], isParam := false, isPersistable := false },
             { name := "z", shape := [1, 1, 4, 4], isParam := false, isPersistable := false }] }

/-- The value store of the abort counterexample: pruning `w1` at ratio `1/2`
selects channel index 1, which is out of range for `w2`'s single input
channel. -/
def s9 : Scope := [("w1", [[[5]], [[1]]]), ("w2", [[[0]]]), ("w3", [[[7]]])]

/-- A forward operator consuming the start tensor of the search fixture. -/
def opA : Op :=
  { idx := 0, type := "relu", ins := [("X", "t")], outs := ["a"],
    isBwd := false, isOpt := false, groups := 0 }

/-- An optimizer operator (`sgd`, `is_opt_op` true) consuming `opA`'s
output. -/
def opB : Op :=
  { idx := 1, type := "sgd", ins := [("P", "a")], outs := ["b"],
    isBwd := false, isOpt := true, groups := 0 }

/-- The graph of the forward-search fixture. -/
def gOpt : Graph := { ops := [opA, opB], vars := [] }

/-! ### Lemmas about channel selection (`_cal_pruned_idx`) -/

instance (s : List Nat) : IsTotal Nat (scoreRel s) :=
  ⟨fun i j => by unfold scoreRel; omega⟩

instance (s : List Nat) : IsTrans Nat (scoreRel s) :=
  ⟨fun a b c hab hbc => by unfold scoreRel at *; omega⟩

theorem l1Scores_length (t : Tensor) : (l1Scores t).length = t.length :=
  List.length_map t chanAbs

theorem argsort_perm (s : List Nat) : (argsort s).Perm (List.range s.length) :=
  List.perm_insertionSort _ _

theorem argsort_sorted (s : List Nat) : List.Sorted (scoreRel s) (argsort s) :=
  List.sorted_insertionSort _ _

theorem argsort_length (s : List Nat) : (argsort s).length = s.length := by
  simpa using (argsort_perm s).length_eq

theorem argsort_nodup (s : List Nat) : (argsort s).Nodup :=
  ((argsort_perm s).nodup_iff).mpr (List.nodup_range _)

theorem argsort_mem {s : List Nat} {i : Nat} : i ∈ argsort s ↔ i < s.length := by
  rw [(argsort_perm s).mem_iff, List.mem_range]

theorem pruneNum_le (n rnum rden : Nat) (hden : 0 < rden) (hlt : rnum < rden) :
    pruneNum n rnum rden ≤ n := by
  unfold pruneNum
  have hpos : 0 < 2 * rden := by omega
  have h : 2 * n * (rnum + 1) ≤ 2 * n * rden := Nat.mul_le_mul (Nat.le_refl _) hlt
  have h2 : 2 * n * rnum + 2 * n ≤ 2 * n * rden := by
    have he : 2 * n * rnum + 2 * n = 2 * n * (rnum + 1) := by ring
    rw [he]; exact h
  have h3 : 2 * n * rnum ≤ 2 * n * rden := le_trans (Nat.le_add_right _ _) h2
  have h4 : rden < 2 * rden := by omega
  have h5 : 2 * n * rnum + rden < 2 * n * rden + 2 * rden :=
    Nat.add_lt_add_of_le_of_lt h3 h4
  refine Nat.lt_succ_iff.mp ?_
  rw [Nat.div_lt_iff_lt_mul hpos]
  have heq : (n + 1) * (2 * rden) = 2 * n * rden + 2 * rden := by ring
  rw [heq]
  exact h5

theorem argsort_take_min (s : List Nat) (k : Nat) :
    ∀ i ∈ (argsort s).take k, ∀ j, j < s.length → j ∉ (argsort s).take k →
      scoreRel s i j := by
  intro i hi j hj hnj
  have hsplit := List.take_append_drop k (argsort s)
  have hjdrop : j ∈ (argsort s).drop k := by
    have hjmem : j ∈ (argsort s).take k ++ (argsort s).drop k := by
      rw [hsplit]; exact argsort_mem.mpr hj
    rcases List.mem_append.mp hjmem with h | h
    · exact absurd h hnj
    · exact h
  have hp : List.Pairwise (scoreRel s) ((argsort s).take k ++ (argsort s).drop k) := by
    rw [hsplit]; exact argsort_sorted s
  exact (List.pairwise_append.mp hp).2.2 i hi j hjdrop

theorem argsort_take_ne (s : List Nat) (k : Nat) :
    ∀ i ∈ (argsort s).take k, ∀ j, j ∉ (argsort s).take k → j ∈ (argsort s).drop k →
      i ≠ j := by
  intro i hi j _ hjdrop
  have hsplit := List.take_append_drop k (argsort s)
  have hp : List.Pairwise (· ≠ ·) ((argsort s).take k ++ (argsort s).drop k) := by
    rw [hsplit]; exact argsort_nodup s
  exact (List.pairwise_append.mp hp).2.2 i hi j hjdrop

/-- C1 (amended): with criterion `"l1_norm"` and ratio `rnum/rden ∈ [0,1)`,
the selected indices are exactly `round(n·ratio)` many, distinct and in
range; they are exactly the channels with the smallest `sum(|value|)`
scores (ties broken by ascending original index); and the returned list is
ordered ascending by (score, original index) — the order produced by
`argsort` — not by index value. -/
theorem C1_l1norm_selection (t : Tensor) (rnum rden : Nat) (idxs : List Nat)
    (hden : 0 < rden) (hlt : rnum < rden)
    (hsel : calPrunedIdx "l1_norm" t rnum rden = .ok idxs) :
    idxs.length = pruneNum t.length rnum rden ∧
    idxs.Nodup ∧
    (∀ i ∈ idxs, i < t.length) ∧
    List.Sorted (scoreRel (l1Scores t)) idxs ∧
    (∀ i ∈ idxs, ∀ j, j < t.length → j ∉ idxs →
      (l1Scores t).getD i 0 < (l1Scores t).getD j 0 ∨
        ((l1Scores t).getD i 0 = (l1Scores t).getD j 0 ∧ i < j)) := by
  have hidx : idxs = (argsort (l1Scores t)).take (pruneNum t.length rnum rden) := by
    simp [calPrunedIdx] at hsel
    exact hsel.symm
  subst hidx
  set s := l1Scores t with hs
  set k := pruneNum t.length rnum rden with hk
  have hslen : s.length = t.length := l1Scores_length t
  refine ⟨?_, ?_, ?_, ?_, ?_⟩
  · rw [List.length_take, argsort_length, hslen]
    exact Nat.min_eq_left (pruneNum_le _ _ _ hden hlt)
  · exact List.Nodup.sublist (List.take_sublist _ _) (argsort_nodup s)
  · intro i hi
    have := argsort_mem.mp (List.take_subset _ _ hi)
    omega
  · exact List.Pairwise.sublist (List.take_sublist _ _) (argsort_sorted s)
  · intro i hi j hj hnj
    have hj' : j < s.length := by omega
    have hrel := argsort_take_min s k i hi j hj' hnj
    have hjdrop : j ∈ (argsort s).drop k := by
      have hjmem : j ∈ (argsort s).take k ++ (argsort s).drop k := by
        rw [List.take_append_drop]; exact argsort_mem.mpr hj'
      rcases List.mem_append.mp hjmem with h | h
      · exact absurd h hnj
      · exact h
    have hne := argsort_take_ne s k i hi j hnj hjdrop
    unfold scoreRel at hrel
    rcases hrel with h | ⟨he, hle⟩
    · exact Or.inl h
    · exact Or.inr ⟨he, lt_of_le_of_ne hle hne⟩

/-- Counterexample to C1 as stated: for the parameter with per-channel l1
scores `[3, 1, 4]` at ratio `2/3`, `_cal_pruned_idx` returns `[1, 0]` —
the two smallest-score channels in ascending *score* order, which is not
an ascending list of indices. -/
theorem C1_counterexample :
    calPrunedIdx "l1_norm" [[[3]], [[1]], [[4]]] 2 3 = .ok [1, 0] ∧
    ¬ List.Sorted (· ≤ ·) [1, 0] := by
  constructor
  · rfl
  · intro h
    have := List.rel_of_sorted_cons h 0 (by simp)
    omega

/-- Witness for `C1_l1norm_selection` at the one-channel tensor `[[[1]]]`
and ratio `1/2`. -/
theorem C1_l1norm_selection_witness :
    ([0] : List Nat).length = pruneNum ([[[1]]] : Tensor).length 1 2 ∧
    ([0] : List Nat).Nodup ∧
    (∀ i ∈ ([0] : List Nat), i < ([[[1]]] : Tensor).length) ∧
    List.Sorted (scoreRel (l1Scores [[[1]]])) [0] ∧
    (∀ i ∈ ([0] : List Nat), ∀ j, j < ([[[1]]] : Tensor).length → j ∉ ([0] : List Nat) →
      (l1Scores [[[1]]]).getD i 0 < (l1Scores [[[1]]]).getD j 0 ∨
        ((l1Scores [[[1]]]).getD i 0 = (l1Scores [[[1]]]).getD j 0 ∧ i < j)) :=
  C1_l1norm_selection [[[1]]] 1 2 [0] (by decide) (by decide) (by decide)

/-! ### Lemmas about `_prune_tensor` -/

theorem removeIdxFrom_eq_filterMap (idxs : List Nat) (l : List α) :
    ∀ i, removeIdxFrom idxs i l =
      (l.enumFrom i).filterMap (fun p => if p.1 ∈ idxs then none else some p.2) := by
  induction l with
  | nil => intro i; rfl
  | cons c cs ih =>
      intro i
      by_cases h : i ∈ idxs
      · simp [removeIdxFrom, List.enumFrom, h, ih (i + 1)]
      · simp [removeIdxFrom, List.enumFrom, h, ih (i + 1)]

theorem removeIdxFrom_length (idxs : List Nat) (l : List α) :
    ∀ i, (removeIdxFrom idxs i l).length =
      l.length - ((List.range' i l.length).filter (fun j => decide (j ∈ idxs))).length := by
  induction l with
  | nil => intro i; simp [removeIdxFrom]
  | cons c cs ih =>
      intro i
      have hF : ((List.range' (i + 1) cs.length).filter
          (fun j => decide (j ∈ idxs))).length ≤ cs.length := by
        calc ((List.range' (i + 1) cs.length).filter (fun j => decide (j ∈ idxs))).length
            ≤ (List.range' (i + 1) cs.length).length := List.length_filter_le _ _
          _ = cs.length := List.length_range' _ _ _
      by_cases h : i ∈ idxs
      · simp only [List.length_cons]
        rw [List.range'_succ]
        simp only [removeIdxFrom, if_pos h, List.filter_cons, decide_eq_true_eq]
        simp only [List.length_cons, ih (i + 1)]
        omega
      · simp only [List.length_cons]
        rw [List.range'_succ]
        simp only [removeIdxFrom, if_neg h, List.filter_cons, decide_eq_true_eq]
        simp only [List.length_cons, ih (i + 1)]
        omega

theorem filter_range_mem_length (idxs : List Nat) (n : Nat)
    (hnd : idxs.Nodup) (hlt : ∀ i ∈ idxs, i < n) :
    ((List.range n).filter (fun j => decide (j ∈ idxs))).length = idxs.length := by
  have hperm : ((List.range n).filter (fun j => decide (j ∈ idxs))).Perm idxs := by
    apply List.perm_iff_count.mpr
    intro a
    by_cases ha : a ∈ idxs
    · rw [List.count_eq_one_of_mem hnd ha]
      refine List.count_eq_one_of_mem (List.Nodup.filter _ (List.nodup_range _)) ?_
      rw [List.mem_filter, List.mem_range]
      exact ⟨hlt a ha, by simpa using ha⟩
    · rw [List.count_eq_zero_of_not_mem ha, List.count_eq_zero_of_not_mem]
      intro hmem
      exact ha (by simpa using (List.mem_filter.mp hmem).2)
  exact hperm.length_eq

theorem removeIdx_length (idxs : List Nat) (t : List α)
    (hnd : idxs.Nodup) (hlt : ∀ i ∈ idxs, i < t.length) :
    (removeIdxFrom idxs 0 t).length = t.length - idxs.length := by
  rw [removeIdxFrom_length idxs t 0, ← List.range_eq_range',
    filter_range_mem_length idxs t.length hnd hlt]

theorem removeIdxFrom_nil (l : List α) : ∀ i, removeIdxFrom [] i l = l := by
  induction l with
  | nil => intro i; rfl
  | cons c cs ih => intro i; simp [removeIdxFrom, ih (i + 1)]

theorem zeroIdxFrom_nil (zero : α → α) (l : List α) : ∀ i, zeroIdxFrom zero [] i l = l := by
  induction l with
  | nil => intro i; rfl
  | cons c cs ih => intro i; simp [zeroIdxFrom, ih (i + 1)]

theorem zeroIdxFrom_length (zero : α → α) (idxs : List Nat) (l : List α) :
    ∀ i, (zeroIdxFrom zero idxs i l).length = l.length := by
  induction l with
  | nil => intro i; rfl
  | cons c cs ih => intro i; simp [zeroIdxFrom, ih (i + 1)]

theorem zeroIdxFrom_getD (zero : α → α) (idxs : List Nat) (l : List α) (d : α) :
    ∀ i j, (zeroIdxFrom zero idxs i l).getD j d =
      if j < l.length then
        (if (i + j) ∈ idxs then zero (l.getD j d) else l.getD j d)
      else d := by
  induction l with
  | nil => intro i j; simp [zeroIdxFrom]
  | cons c cs ih =>
      intro i j
      cases j with
      | zero => simp [zeroIdxFrom]
      | succ j' =>
          have harith : i + 1 + j' = i + (j' + 1) := by omega
          calc (zeroIdxFrom zero idxs i (c :: cs)).getD (j' + 1) d
              = (zeroIdxFrom zero idxs (i + 1) cs).getD j' d := by
                simp [zeroIdxFrom]
            _ = if j' < cs.length then
                  (if (i + 1 + j') ∈ idxs then zero (cs.getD j' d) else cs.getD j' d)
                else d := ih (i + 1) j'
            _ = _ := by
                rw [harith]
                simp [Nat.succ_lt_succ_iff]

theorem zeroChan_isZero (c : Chan) : chanIsZero (zeroChan c) := by
  intro r hr x hx
  rcases List.mem_map.mp hr with ⟨r0, _, hr0⟩
  subst hr0
  rcases List.mem_map.mp hx with ⟨x0, _, hx0⟩
  exact hx0.symm

/-- C2 (amended): pruning a tensor with the index set `_cal_pruned_idx`
computes for ratio `rnum/rden ∈ [0,1)` at axis 0 succeeds; hard mode
returns the tensor with the indexed slices removed, of pruned-axis
dimension `n − round(n·ratio)`; lazy mode returns a tensor of unchanged
pruned-axis dimension in which the selected slices are entirely zero and
every other slice is unchanged (so pre-existing zero slices outside the
selection can make the total count of zero slices exceed `round(n·ratio)`);
and ratio `0` selects no indices, pruning with the empty index set leaving
the tensor unchanged in both modes. -/
theorem C2_prune_shape (t : Tensor) (rnum rden : Nat) (idxs : List Nat)
    (hden : 0 < rden) (hlt : rnum < rden)
    (hsel : calPrunedIdx "l1_norm" t rnum rden = .ok idxs) :
    (∃ out, pruneTensor t idxs 0 false = .ok out ∧
      out.length = t.length - pruneNum t.length rnum rden ∧
      out = (t.enumFrom 0).filterMap (fun p => if p.1 ∈ idxs then none else some p.2)) ∧
    (∃ out, pruneTensor t idxs 0 true = .ok out ∧
      out.length = t.length ∧
      (∀ j, j < t.length → j ∈ idxs → chanIsZero (out.getD j [])) ∧
      (∀ j, j < t.length → j ∉ idxs → out.getD j [] = t.getD j [])) ∧
    (rnum = 0 → idxs = []) ∧
    (pruneTensor t [] 0 false = .ok t ∧ pruneTensor t [] 0 true = .ok t) := by
  obtain ⟨hlen, hnd, hmem, _, _⟩ :=
    C1_l1norm_selection t rnum rden idxs hden hlt hsel
  have hall : (idxs.all fun i => decide (i < t.length)) = true := by
    rw [List.all_eq_true]
    intro i hi
    simpa using hmem i hi
  refine ⟨?_, ?_, ?_, ?_, ?_⟩
  · refine ⟨removeIdxFrom idxs 0 t, ?_, ?_, removeIdxFrom_eq_filterMap idxs t 0⟩
    · simp [pruneTensor, hall]
    · rw [removeIdx_length idxs t hnd hmem, hlen]
  · refine ⟨zeroIdxFrom zeroChan idxs 0 t, ?_, zeroIdxFrom_length _ _ _ _, ?_, ?_⟩
    · simp [pruneTensor, hall]
    · intro j hj hjin
      rw [zeroIdxFrom_getD zeroChan idxs t [] 0 j]
      simp [hj, hjin, zeroChan_isZero]
    · intro j hj hjout
      rw [zeroIdxFrom_getD zeroChan idxs t [] 0 j]
      simp [hj, hjout]
  · intro h0
    subst h0
    have hk : pruneNum t.length 0 rden = 0 := by
      unfold pruneNum
      rw [Nat.mul_zero, Nat.zero_add]
      exact Nat.div_eq_of_lt (by omega)
    rw [hk] at hlen
    exact List.eq_nil_of_length_eq_zero hlen
  · simp [pruneTensor, removeIdxFrom_nil]
  · simp [pruneTensor, zeroIdxFrom_nil]

/-- Counterexample to C2 as stated: the all-zero two-channel tensor pruned
lazily at ratio `1/2` keeps its shape but has two entirely-zero slices, not
"exactly" `round(2·1/2) = 1`. -/
theorem C2_counterexample :
    calPrunedIdx "l1_norm" [[[0]], [[0]]] 1 2 = .ok [0] ∧
    pruneTensor [[[0]], [[0]]] [0] 0 true = .ok [[[0]], [[0]]] ∧
    pruneNum 2 1 2 = 1 ∧
    ¬ (([[[0]], [[0]]] : Tensor).countP (fun c => decide (chanIsZero c)) =
        pruneNum 2 1 2) := by
  refine ⟨rfl, rfl, rfl, ?_⟩
  decide

/-- Witness for `C2_prune_shape` at the two-channel tensor `[[[3]], [[1]]]`
and ratio `1/2` (selected index set `[1]`). -/
theorem C2_prune_shape_witness :
    (∃ out, pruneTensor [[[3]], [[1]]] [1] 0 false = .ok out ∧
      out.length = ([[[3]], [[1]]] : Tensor).length -
        pruneNum ([[[3]], [[1]]] : Tensor).length 1 2 ∧
      out = (([[[3]], [[1]]] : Tensor).enumFrom 0).filterMap
        (fun p => if p.1 ∈ ([1] : List Nat) then none else some p.2)) ∧
    (∃ out, pruneTensor [[[3]], [[1]]] [1] 0 true = .ok out ∧
      out.length = ([[[3]], [[1]]] : Tensor).length ∧
      (∀ j, j < ([[[3]], [[1]]] : Tensor).length → j ∈ ([1] : List Nat) →
        chanIsZero (out.getD j [])) ∧
      (∀ j, j < ([[[3]], [[1]]] : Tensor).length → j ∉ ([1] : List Nat) →
        out.getD j [] = ([[[3]], [[1]]] : Tensor).getD j [])) ∧
    ((1 : Nat) = 0 → ([1] : List Nat) = []) ∧
    (pruneTensor [[[3]], [[1]]] [] 0 false = .ok [[[3]], [[1]]] ∧
      pruneTensor [[[3]], [[1]]] [] 0 true = .ok [[[3]], [[1]]]) :=
  C2_prune_shape [[[3]], [[1]]] 1 2 [1] (by decide) (by decide) (by decide)

/-! ### C8: criterion validation -/

/-- C8 (amended): construction never validates the criterion — it succeeds
for every string, merely storing it; selection later fails (the unbound
`criterions` of `_cal_pruned_idx`) for every criterion other than
`"l1_norm"` and succeeds for `"l1_norm"`. -/
theorem C8_criterion_validation (c : String) (t : Tensor) (rnum rden : Nat) :
    (prunerInit c).criterion = c ∧
    (c ≠ "l1_norm" → calPrunedIdx c t rnum rden = .error ()) ∧
    (c = "l1_norm" → ∃ l, calPrunedIdx c t rnum rden = .ok l) := by
  refine ⟨rfl, ?_, ?_⟩
  · intro h
    simp [calPrunedIdx, h]
  · intro h
    exact ⟨(argsort (l1Scores t)).take (pruneNum t.length rnum rden),
      by simp [calPrunedIdx, h]⟩

/-- Counterexample to C8 as stated: constructing with the unsupported
criterion `"l2_norm"` raises nothing — the criterion is stored as-is — and
the failure only happens when selection is invoked. -/
theorem C8_counterexample :
    prunerInit "l2_norm" = ⟨"l2_norm"⟩ ∧
    calPrunedIdx "l2_norm" [[[1]]] 1 2 = .error () := by
  exact ⟨rfl, by decide⟩

/-- Witness for `C8_criterion_validation` at criterion `"l2_norm"`. -/
theorem C8_criterion_validation_witness :
    (prunerInit "l2_norm").criterion = "l2_norm" ∧
    calPrunedIdx "l2_norm" [[[1]]] 1 2 = .error () :=
  ⟨(C8_criterion_validation "l2_norm" [[[1]]] 1 2).1,
   (C8_criterion_validation "l2_norm" [[[1]]] 1 2).2.1 (by decide)⟩

/-! ### C10: the caller's program is never mutated -/

/-- C10: a successful `prune` leaves every pre-existing program of the
store untouched (in particular the caller's argument) and returns a fresh
reference — the mutated clone appended at the end of the store; only the
scope is updated in place. -/
theorem C10_program_not_mutated (criterion : String) (programs : List Graph)
    (progIdx : Nat) (scope : Scope) (params : List String)
    (ratios : List (Nat × Nat)) (lazy onlyGraph buVal buShape : Bool)
    (out : List Graph × Nat × Scope × Option (List (String × BackupV)) ×
      Option (List (String × List Nat)) × List String)
    (hok : prune criterion programs progIdx scope params ratios
      lazy onlyGraph buVal buShape = .ok out) :
    (∀ i, i < programs.length → out.1[i]? = programs[i]?) ∧
    out.2.1 = programs.length ∧
    out.1.length = programs.length + 1 := by
  unfold prune at hok
  cases hg : programs[progIdx]? with
  | none =>
      rw [hg] at hok
      simp [Option.elim, Bind.bind, Except.bind] at hok
  | some g =>
      rw [hg] at hok
      simp only [Option.elim, Bind.bind, Except.bind] at hok
      cases hres : pruneGraph criterion g scope params ratios lazy onlyGraph buVal buShape with
      | error e =>
          rw [hres] at hok
          simp at hok
      | ok res =>
          rw [hres] at hok
          simp only [Except.ok.injEq] at hok
          subst hok
          refine ⟨?_, rfl, by simp⟩
          intro i hi
          exact List.getElem?_append_left hi

/-- Witness for `C10_program_not_mutated`: a depthwise graph pruned with an
empty request list succeeds; the original program at index 0 is unchanged,
the returned reference is the fresh clone appended at index 1. -/
theorem C10_program_not_mutated_witness :
    prune "l1_norm" [dwGraph] 0 [] [] [] false false false false =
      .ok ([dwGraph, dwGraphFixed], 1, [], none, none, []) ∧
    ((∀ i, i < ([dwGraph] : List Graph).length →
        ([dwGraph, dwGraphFixed] : List Graph)[i]? = ([dwGraph] : List Graph)[i]?) ∧
      (1 : Nat) = ([dwGraph] : List Graph).length ∧
      ([dwGraph, dwGraphFixed] : List Graph).length = ([dwGraph] : List Graph).length + 1) := by
  constructor
  · rfl
  · exact C10_program_not_mutated "l1_norm" [dwGraph] 0 [] [] [] false false false false
      ([dwGraph, dwGraphFixed], 1, [], none, none, []) rfl

/-! ### C4 and C5: the concat and mul dispatch rules -/

/-- When every name has a graph variable of axis-1 width given by `ws`,
the offset loop returns the sum of `ws`. -/
theorem sumWidths_of (g : Graph) (names : List String) (ws : List Nat)
    (hws : List.Forall₂ (fun n w => ∃ v, g.var? n = some v ∧ v.shape[1]? = some w)
      names ws) :
    sumWidths g names = .ok ws.sum := by
  induction hws with
  | nil => rfl
  | @cons n w ns ws h _ ih =>
      rcases h with ⟨v, hv, hw1⟩
      simp only [sumWidths, hv, Option.elim, Bind.bind, Except.bind, hw1, ih,
        List.sum_cons]

/-- C4: when the dispatcher reaches a `concat` operator whose originating
input is identified (by matching the outputs of the most recently visited
operators against the concat inputs) at position `p`, and the concat inputs
before `p` have axis-1 widths `ws`, then the step forwards every incoming
index shifted by `ws.sum` and re-invokes the forward search from the concat
operator, dispatching the result before continuing with the remaining
operators and the unshifted indices. -/
theorem C4_concat_dispatch (lazy onlyGraph : Bool) (fuel : Nat)
    (allOps rest : List Op) (idxs : List Nat) (st : PState) (op : Op)
    (p : Nat) (ws : List Nat)
    (hty : op.type = "concat")
    (hpos : findConcatPos allOps.reverse op.allInputs = some p)
    (hws : List.Forall₂ (fun n w => ∃ v, st.graph.var? n = some v ∧ v.shape[1]? = some w)
      (op.allInputs.take p) ws) :
    pruneOpsGo lazy onlyGraph (fuel + 1) allOps (op :: rest) idxs st =
      (pruneOpsGo lazy onlyGraph fuel (forwardSearchRelatedOp st.graph (.op op))
          (forwardSearchRelatedOp st.graph (.op op))
          (idxs.map (fun x => x + ws.sum)) st) >>=
        (fun st' => pruneOpsGo lazy onlyGraph fuel allOps rest idxs st') := by
  have hc1 : (op.type == "conv2d" || op.type == "deformable_conv") = false := by
    rw [hty]; rfl
  have hc2 : (op.type == "depthwise_conv2d") = false := by rw [hty]; rfl
  have hc3 : (op.type == "elementwise_add") = false := by rw [hty]; rfl
  have hc4 : (op.type == "mul") = false := by rw [hty]; rfl
  have hc5 : (op.type == "concat") = true := by rw [hty]; rfl
  simp only [pruneOpsGo, hc1, hc2, hc3, hc4, hc5, Bool.false_eq_true, if_false,
    if_true, Bind.bind, Except.bind, hpos, sumWidths_of st.graph _ ws hws]

/-- C5: when the dispatcher reaches a `mul` operator with weight input `w`
(the last parameter input) and feature map `x` (the last non-parameter
input) whose shape has trailing spatial sizes `s2` and `s3`, the step
prunes the weight group at axis 0 with every incoming channel index `i`
expanded to the contiguous block `[i·S, (i+1)·S)` for `S = s2·s3`, and the
expanded set is exactly the union of those blocks. -/
theorem C5_mul_dispatch (lazy onlyGraph : Bool) (fuel : Nat)
    (allOps rest : List Op) (idxs : List Nat) (st : PState) (op : Op)
    (w x : String) (xv : Var) (s2 s3 : Nat)
    (hty : op.type = "mul")
    (hw : lastParamInput st.graph op = some w)
    (hx : lastNonParamInput st.graph op = some x)
    (hxv : st.graph.var? x = some xv)
    (h2 : xv.shape[2]? = some s2)
    (h3 : xv.shape[3]? = some s3) :
    pruneOpsGo lazy onlyGraph (fuel + 1) allOps (op :: rest) idxs st =
      (pruneParameterByIdx st (w :: getAccumulator st.graph w)
          (mulExpandIdxs (s2 * s3) idxs) 0 lazy onlyGraph) >>=
        (fun st' => pruneOpsGo lazy onlyGraph fuel allOps rest idxs st') ∧
    (∀ y, y ∈ mulExpandIdxs (s2 * s3) idxs ↔
      ∃ i ∈ idxs, i * (s2 * s3) ≤ y ∧ y < (i + 1) * (s2 * s3)) := by
  constructor
  · have hc1 : (op.type == "conv2d" || op.type == "deformable_conv") = false := by
      rw [hty]; rfl
    have hc2 : (op.type == "depthwise_conv2d") = false := by rw [hty]; rfl
    have hc3 : (op.type == "elementwise_add") = false := by rw [hty]; rfl
    have hc4 : (op.type == "mul") = true := by rw [hty]; rfl
    simp only [pruneOpsGo, hc1, hc2, hc3, hc4, Bool.false_eq_true, if_false,
      if_true, Bind.bind, Except.bind, mulPrune, hw, hx, hxv, Option.elim, h2, h3]
  · intro y
    constructor
    · intro hy
      rcases List.mem_flatMap.mp hy with ⟨i, hi, hyi⟩
      rcases List.mem_map.mp hyi with ⟨j, hj, hji⟩
      rw [List.mem_range] at hj
      have hd : (i + 1) * (s2 * s3) = i * (s2 * s3) + s2 * s3 := by ring
      refine ⟨i, hi, ?_, ?_⟩ <;> omega
    · rintro ⟨i, hi, h1, h2'⟩
      have hd : (i + 1) * (s2 * s3) = i * (s2 * s3) + s2 * s3 := by ring
      refine List.mem_flatMap.mpr ⟨i, hi, List.mem_map.mpr ⟨y - i * (s2 * s3), ?_, ?_⟩⟩
      · rw [List.mem_range]
        omega
      · omega

/-- Witness for `C4_concat_dispatch`: concat inputs of widths `[4, 6, 5]`,
originating input at position 1, incoming indices `{1, 3}` — the forwarded
indices are `{5, 7}` (offset 4). -/
theorem C4_concat_dispatch_witness :
    (pruneOpsGo false false (3 + 1) [concatProducerOp] [concatOp] [1, 3] concatState =
      (pruneOpsGo false false 3 (forwardSearchRelatedOp concatState.graph (.op concatOp))
          (forwardSearchRelatedOp concatState.graph (.op concatOp))
          (([1, 3] : List Nat).map (fun x => x + ([4] : List Nat).sum)) concatState) >>=
        (fun st' => pruneOpsGo false false 3 [concatProducerOp] [] [1, 3] st')) ∧
    ([1, 3] : List Nat).map (fun x => x + ([4] : List Nat).sum) = [5, 7] := by
  constructor
  · exact C4_concat_dispatch false false 3 [concatProducerOp] [] [1, 3] concatState
      concatOp 1 [4] rfl (by decide)
      (List.Forall₂.cons
        ⟨{ name := "i1", shape := [1, 4], isParam := false, isPersistable := false },
          rfl, rfl⟩
        List.Forall₂.nil)
  · decide

/-- Witness for `C5_mul_dispatch`: spatial size 3×3 (`S = 9`), incoming
channel indices `{0, 2}` — expanded flattened indices `{0..8} ∪ {18..26}`. -/
theorem C5_mul_dispatch_witness :
    (pruneOpsGo false false (2 + 1) [mulOp] [mulOp] [0, 2] mulState =
      (pruneParameterByIdx mulState ("w" :: getAccumulator mulState.graph "w")
          (mulExpandIdxs (3 * 3) [0, 2]) 0 false false) >>=
        (fun st' => pruneOpsGo false false 2 [mulOp] [] [0, 2] st')) ∧
    (∀ y, y ∈ mulExpandIdxs (3 * 3) [0, 2] ↔
      ∃ i ∈ ([0, 2] : List Nat), i * (3 * 3) ≤ y ∧ y < (i + 1) * (3 * 3)) ∧
    mulExpandIdxs (3 * 3) [0, 2] =
      [0, 1, 2, 3, 4, 5, 6, 7, 8, 18, 19, 20, 21, 22, 23, 24, 25, 26] := by
  have h := C5_mul_dispatch false false 2 [mulOp] [] [0, 2] mulState mulOp
    "w" "xf" fcX 3 3 rfl (by decide) (by decide) rfl rfl rfl
  exact ⟨h.1, h.2, by decide⟩

/-! ### Generic inversion and frame lemmas -/

theorem bind_ok {α β : Type} {a : Except Unit α} {f : α → Except Unit β} {b : β}
    (h : a >>= f = .ok b) : ∃ x, a = .ok x ∧ f x = .ok b := by
  cases a with
  | error e => simp [Bind.bind, Except.bind] at h
  | ok x => exact ⟨x, rfl, by simpa [Bind.bind, Except.bind] using h⟩

theorem foldlM_proj {σ α β : Type} (π : σ → β) (f : σ → α → Except Unit σ)
    (l : List α)
    (hf : ∀ x ∈ l, ∀ t t', f t x = .ok t' → π t' = π t) :
    ∀ s s', l.foldlM f s = .ok s' → π s' = π s := by
  induction l with
  | nil =>
      intro s s' h
      simp only [List.foldlM_nil] at h
      simp only [pure, Except.pure, Except.ok.injEq] at h
      rw [h]
  | cons x xs ih =>
      intro s s' h
      rw [List.foldlM_cons] at h
      obtain ⟨t, h1, h2⟩ := bind_ok h
      have e1 := hf x (by simp) s t h1
      have e2 := ih (fun y hy t t' => hf y (List.mem_cons_of_mem _ hy) t t') t s' h2
      rw [e2, e1]

theorem appendPruned_graph (st : PState) (axis : Nat) (n : String) :
    (st.appendPruned axis n).graph = st.graph := by
  unfold PState.appendPruned
  rcases axis with _ | _ | a <;> rfl

theorem setShape_ops (g : Graph) (n : String) (s : List Nat) :
    (g.setShape n s).ops = g.ops := rfl

theorem pruneByIdxOne_ops (axis : Nat) (idxs : List Nat) (lazy : Bool)
    (st : PState) (n : String) (st' : PState)
    (h : pruneByIdxOne axis idxs lazy st n = .ok st') :
    st'.graph.ops = st.graph.ops := by
  unfold pruneByIdxOne at h
  obtain ⟨t, h1, h⟩ := bind_ok h
  obtain ⟨t', h2, h⟩ := bind_ok h
  obtain ⟨shape, h3, h⟩ := bind_ok h
  obtain ⟨shape', h4, h⟩ := bind_ok h
  simp only [Except.ok.injEq] at h
  rw [← h, appendPruned_graph]
  rfl

theorem pruneByIdxOneGraph_ops (axis k : Nat) (st : PState) (n : String) (st' : PState)
    (h : pruneByIdxOneGraph axis k st n = .ok st') :
    st'.graph.ops = st.graph.ops := by
  unfold pruneByIdxOneGraph at h
  obtain ⟨shape, h1, h⟩ := bind_ok h
  obtain ⟨shape', h2, h⟩ := bind_ok h
  simp only [Except.ok.injEq] at h
  rw [← h, appendPruned_graph]
  rfl

theorem pruneParameterByIdx_ops (st : PState) (params : List String) (idxs : List Nat)
    (axis : Nat) (lazy onlyGraph : Bool) (st' : PState)
    (h : pruneParameterByIdx st params idxs axis lazy onlyGraph = .ok st') :
    st'.graph.ops = st.graph.ops := by
  unfold pruneParameterByIdx at h
  cases params with
  | nil => simp at h
  | cons primary rest =>
      obtain ⟨reg, hreg, h⟩ := bind_ok h
      by_cases hmem : primary ∈ reg
      · rw [if_pos hmem] at h
        simp only [Except.ok.injEq] at h
        rw [← h]
      · rw [if_neg hmem] at h
        cases onlyGraph with
        | true =>
            rw [if_pos rfl] at h
            exact foldlM_proj (fun st => st.graph.ops) _ _
              (fun x _ t t' ht => pruneByIdxOneGraph_ops axis idxs.length t x t' ht)
              st st' h
        | false =>
            rw [if_neg (by simp)] at h
            exact foldlM_proj (fun st => st.graph.ops) _ _
              (fun x _ t t' ht => pruneByIdxOne_ops axis idxs lazy t x t' ht)
              st st' h

theorem convLikePrune_ops (axis : Nat) (idxs : List Nat) (lazy onlyGraph : Bool)
    (st : PState) (op : Op) (st' : PState)
    (h : convLikePrune axis idxs lazy onlyGraph st op = .ok st') :
    st'.graph.ops = st.graph.ops := by
  unfold convLikePrune at h
  refine foldlM_proj (fun st => st.graph.ops) _ _ ?_ st st' h
  intro x _ t t' ht
  by_cases hp : t.graph.isParameter x = true
  · rw [if_pos hp] at ht
    exact pruneParameterByIdx_ops t _ idxs axis lazy onlyGraph t' ht
  · rw [if_neg hp] at ht
    simp only [Except.ok.injEq] at ht
    rw [← ht]

theorem mulPrune_ops (idxs : List Nat) (lazy onlyGraph : Bool)
    (st : PState) (op : Op) (st' : PState)
    (h : mulPrune idxs lazy onlyGraph st op = .ok st') :
    st'.graph.ops = st.graph.ops := by
  unfold mulPrune at h
  cases hw : lastParamInput st.graph op with
  | none => rw [hw] at h; cases hx : lastNonParamInput st.graph op <;> rw [hx] at h <;> simp at h
  | some w =>
      rw [hw] at h
      cases hx : lastNonParamInput st.graph op with
      | none => rw [hx] at h; simp at h
      | some x =>
          rw [hx] at h
          obtain ⟨xv, h1, h⟩ := bind_ok h
          obtain ⟨s2, h2, h⟩ := bind_ok h
          obtain ⟨s3, h3, h⟩ := bind_ok h
          exact pruneParameterByIdx_ops st _ _ 0 lazy onlyGraph st' h

theorem bnPrune_ops (idxs : List Nat) (lazy onlyGraph : Bool)
    (st : PState) (op : Op) (st' : PState)
    (h : bnPrune idxs lazy onlyGraph st op = .ok st') :
    st'.graph.ops = st.graph.ops := by
  unfold bnPrune at h
  cases hins : op.allInputs with
  | nil => rw [hins] at h; simp at h
  | cons beta r1 =>
      cases r1 with
      | nil => rw [hins] at h; simp at h
      | cons mean r2 =>
          cases r2 with
          | nil => rw [hins] at h; simp at h
          | cons alpha r3 =>
              cases r3 with
              | nil => rw [hins] at h; simp at h
              | cons variance r4 =>
                  rw [hins] at h
                  obtain ⟨s1, h1, h⟩ := bind_ok h
                  obtain ⟨s2, h2, h⟩ := bind_ok h
                  obtain ⟨s3, h3, h⟩ := bind_ok h
                  have e1 := pruneParameterByIdx_ops st _ idxs 0 lazy onlyGraph s1 h1
                  have e2 := pruneParameterByIdx_ops s1 _ idxs 0 lazy onlyGraph s2 h2
                  have e3 := pruneParameterByIdx_ops s2 _ idxs 0 lazy onlyGraph s3 h3
                  have e4 := pruneParameterByIdx_ops s3 _ idxs 0 lazy onlyGraph st' h
                  rw [e4, e3, e2, e1]

theorem pruneOpsGo_ops (lazy onlyGraph : Bool) :
    ∀ (fuel : Nat) (allOps ops : List Op) (idxs : List Nat) (st st' : PState),
      pruneOpsGo lazy onlyGraph fuel allOps ops idxs st = .ok st' →
      st'.graph.ops = st.graph.ops := by
  intro fuel
  induction fuel with
  | zero => intro allOps ops idxs st st' h; simp [pruneOpsGo] at h
  | succ fuel ih =>
      intro allOps ops idxs st st' h
      cases ops with
      | nil =>
          simp only [pruneOpsGo, Except.ok.injEq] at h
          rw [← h]
      | cons op rest =>
          simp only [pruneOpsGo] at h
          have hrest : ∀ (st1 : PState),
              (if (op.type == "depthwise_conv2d") = true then
                convLikePrune 0 idxs lazy onlyGraph st1 op >>= fun y =>
                  pruneOpsGo lazy onlyGraph fuel allOps rest idxs y
              else if (op.type == "elementwise_add") = true then
                convLikePrune 0 idxs lazy onlyGraph st1 op >>= fun y =>
                  pruneOpsGo lazy onlyGraph fuel allOps rest idxs y
              else if (op.type == "mul") = true then
                mulPrune idxs lazy onlyGraph st1 op >>= fun y =>
                  pruneOpsGo lazy onlyGraph fuel allOps rest idxs y
              else if (op.type == "concat") = true then
                match findConcatPos allOps.reverse op.allInputs with
                | none => (Except.error () : Except Unit PState) >>= fun y =>
                    pruneOpsGo lazy onlyGraph fuel allOps rest idxs y
                | some p =>
                    sumWidths st1.graph (op.allInputs.take p) >>= fun off =>
                      pruneOpsGo lazy onlyGraph fuel
                          (forwardSearchRelatedOp st1.graph (.op op))
                          (forwardSearchRelatedOp st1.graph (.op op))
                          (idxs.map (fun x => x + off)) st1 >>= fun y =>
                        pruneOpsGo lazy onlyGraph fuel allOps rest idxs y
              else if (op.type == "batch_norm") = true then
                bnPrune idxs lazy onlyGraph st1 op >>= fun y =>
                  pruneOpsGo lazy onlyGraph fuel allOps rest idxs y
              else (Except.ok st1 : Except Unit PState) >>= fun y =>
                pruneOpsGo lazy onlyGraph fuel allOps rest idxs y) = .ok st' →
              st'.graph.ops = st1.graph.ops := by
            intro st1 hs
            by_cases hdw : (op.type == "depthwise_conv2d") = true
            · rw [if_pos hdw] at hs
              obtain ⟨y, hy, htail⟩ := bind_ok hs
              rw [ih allOps rest idxs y st' htail,
                convLikePrune_ops 0 idxs lazy onlyGraph st1 op y hy]
            · rw [if_neg hdw] at hs
              by_cases hea : (op.type == "elementwise_add") = true
              · rw [if_pos hea] at hs
                obtain ⟨y, hy, htail⟩ := bind_ok hs
                rw [ih allOps rest idxs y st' htail,
                  convLikePrune_ops 0 idxs lazy onlyGraph st1 op y hy]
              · rw [if_neg hea] at hs
                by_cases hmul : (op.type == "mul") = true
                · rw [if_pos hmul] at hs
                  obtain ⟨y, hy, htail⟩ := bind_ok hs
                  rw [ih allOps rest idxs y st' htail,
                    mulPrune_ops idxs lazy onlyGraph st1 op y hy]
                · rw [if_neg hmul] at hs
                  by_cases hcat : (op.type == "concat") = true
                  · rw [if_pos hcat] at hs
                    cases hpos : findConcatPos allOps.reverse op.allInputs with
                    | none => rw [hpos] at hs; simp [Bind.bind, Except.bind] at hs
                    | some p =>
                        rw [hpos] at hs
                        obtain ⟨off, hoff, hs'⟩ := bind_ok hs
                        obtain ⟨y, hy, htail⟩ := bind_ok hs'
                        rw [ih allOps rest idxs y st' htail, ih _ _ _ st1 y hy]
                  · rw [if_neg hcat] at hs
                    by_cases hbn : (op.type == "batch_norm") = true
                    · rw [if_pos hbn] at hs
                      obtain ⟨y, hy, htail⟩ := bind_ok hs
                      rw [ih allOps rest idxs y st' htail,
                        bnPrune_ops idxs lazy onlyGraph st1 op y hy]
                    · rw [if_neg hbn] at hs
                      obtain ⟨y, hy, htail⟩ := bind_ok hs
                      simp only [Except.ok.injEq] at hy
                      rw [ih allOps rest idxs y st' htail, ← hy]
          by_cases hc : (op.type == "conv2d" || op.type == "deformable_conv") = true
          · rw [if_pos hc] at h
            obtain ⟨st1, h1, h2⟩ := bind_ok h
            rw [hrest st1 h2, convLikePrune_ops 1 idxs lazy onlyGraph st op st1 h1]
          · rw [if_neg hc] at h
            obtain ⟨st1, h1, h2⟩ := bind_ok h
            simp only [Except.ok.injEq] at h1
            rw [hrest st1 h2, ← h1]

theorem ratioLoopOne_ops (idxs : List Nat) (lazy : Bool)
    (acc : PState × Option Tensor) (n : String) (acc' : PState × Option Tensor)
    (h : ratioLoopOne idxs lazy acc n = .ok acc') :
    acc'.1.graph.ops = acc.1.graph.ops := by
  obtain ⟨st, prev⟩ := acc
  unfold ratioLoopOne at h
  simp only at h
  obtain ⟨t, h1, h⟩ := bind_ok h
  cases hp : pruneTensor t idxs 0 lazy with
  | ok t' =>
      rw [hp] at h
      obtain ⟨shape, h2, h⟩ := bind_ok h
      obtain ⟨shape', h3, h⟩ := bind_ok h
      simp only [Except.ok.injEq] at h
      rw [← h]
      simp [appendPruned_graph, setShape_ops]
  | error e =>
      rw [hp] at h
      cases prev with
      | none => simp at h
      | some tp =>
          obtain ⟨shape, h2, h⟩ := bind_ok h
          obtain ⟨shape', h3, h⟩ := bind_ok h
          simp only [Except.ok.injEq] at h
          rw [← h]
          simp [appendPruned_graph, setShape_ops]

theorem pruneFiltersByRatio_ops (criterion : String) (st : PState)
    (params : List String) (rnum rden : Nat) (lazy onlyGraph : Bool)
    (res : PState × Option (List Nat))
    (h : pruneFiltersByRatio criterion st params rnum rden lazy onlyGraph = .ok res) :
    res.1.graph.ops = st.graph.ops := by
  cases params with
  | nil => simp [pruneFiltersByRatio] at h
  | cons primary rest =>
      simp only [pruneFiltersByRatio] at h
      by_cases hmem : primary ∈ st.pruned0
      · rw [if_pos hmem] at h
        simp only [Except.ok.injEq] at h
        rw [← h]
      · rw [if_neg hmem] at h
        cases onlyGraph with
        | true =>
            rw [if_pos rfl] at h
            obtain ⟨shape0, h1, h⟩ := bind_ok h
            cases shape0 with
            | nil => simp at h
            | cons d ds =>
                obtain ⟨st1, h2, h⟩ := bind_ok h
                simp only [Except.ok.injEq] at h
                rw [← h]
                exact foldlM_proj (fun st => st.graph.ops) _ _
                  (fun x _ t t' ht => pruneByIdxOneGraph_ops 0 _ t x t' ht)
                  st st1 h2
        | false =>
            rw [if_neg (by simp)] at h
            obtain ⟨t, h1, h⟩ := bind_ok h
            obtain ⟨idxs, h2, h⟩ := bind_ok h
            obtain ⟨pr, h3, h⟩ := bind_ok h
            simp only [Except.ok.injEq] at h
            rw [← h]
            exact foldlM_proj (fun a => a.1.graph.ops) _ _
              (fun x _ t t' ht => ratioLoopOne_ops idxs lazy t x t' ht)
              (st, none) pr h3

theorem forwardPruningRelatedParams_ops (criterion : String) (st : PState)
    (paramName : String) (ratio : Option (Nat × Nat)) (prunedIdxs : Option (List Nat))
    (lazy onlyGraph : Bool) (st' : PState)
    (h : forwardPruningRelatedParams criterion st paramName ratio prunedIdxs
      lazy onlyGraph = .ok st') :
    st'.graph.ops = st.graph.ops := by
  unfold forwardPruningRelatedParams at h
  by_cases hmem : st.pruned0.contains paramName = true
  · rw [if_pos hmem] at h
    simp only [Except.ok.injEq] at h
    rw [← h]
  · rw [if_neg hmem] at h
    cases ratio with
    | none =>
        cases prunedIdxs with
        | none => simp at h
        | some idxs =>
            obtain ⟨st1, h1, h⟩ := bind_ok h
            have e1 := pruneParameterByIdx_ops st _ idxs 0 lazy onlyGraph st1 h1
            have e2 := pruneOpsGo_ops lazy onlyGraph _ _ _ _ st1 st' h
            rw [e2, e1]
    | some r =>
        obtain ⟨res, h1, h⟩ := bind_ok h
        have e1 := pruneFiltersByRatio_ops criterion st _ r.1 r.2 lazy onlyGraph res h1
        cases hres : res.2 with
        | none => rw [hres] at h; simp at h
        | some idxs =>
            rw [hres] at h
            have e2 := pruneOpsGo_ops lazy onlyGraph _ _ _ _ res.1 st' h
            rw [e2, e1]

theorem siblingPrune_ops (criterion : String) (r : Nat × Nat) (lazy onlyGraph : Bool)
    (paramName : String) (st : PState) (st' : PState)
    (h : siblingPrune criterion r lazy onlyGraph paramName st = .ok st') :
    st'.graph.ops = st.graph.ops := by
  unfold siblingPrune at h
  refine foldlM_proj (fun st => st.graph.ops) _ _ ?_ st st' h
  intro op _ t t' ht
  by_cases hc : (op.type == "conv2d" || op.type == "deformable_conv") = true
  · rw [if_pos hc] at ht
    refine foldlM_proj (fun st => st.graph.ops) _ _ ?_ t t' ht
    intro bro _ u u' hu
    refine foldlM_proj (fun st => st.graph.ops) _ _ ?_ u u' hu
    intro q _ w w' hw
    exact forwardPruningRelatedParams_ops criterion w q (some r) none lazy onlyGraph w' hw
  · rw [if_neg hc] at ht
    simp only [Except.ok.injEq] at ht
    rw [← ht]

theorem pruneParameters_ops (criterion : String) (st0 : PState)
    (params : List String) (ratios : List (Nat × Nat)) (lazy onlyGraph : Bool)
    (st' : PState)
    (h : pruneParameters criterion st0 params ratios lazy onlyGraph = .ok st') :
    st'.graph.ops = st0.graph.ops := by
  unfold pruneParameters at h
  by_cases hlen : params.length ≠ ratios.length
  · rw [if_pos hlen] at h
    simp at h
  · rw [if_neg hlen] at h
    refine foldlM_proj (fun st => st.graph.ops) _ _ ?_ _ st' h
    intro pr _ t t' ht
    show t'.graph.ops = t.graph.ops
    by_cases hmem : t.pruned0.contains pr.1 = true
    · rw [if_pos hmem] at ht
      simp only [Except.ok.injEq] at ht
      rw [← ht]
    · rw [if_neg hmem] at ht
      obtain ⟨v, h1, ht⟩ := bind_ok ht
      obtain ⟨t1, h2, ht⟩ := bind_ok ht
      have e1 := forwardPruningRelatedParams_ops criterion t pr.1 (some pr.2) none
        lazy onlyGraph t1 h2
      have e2 := siblingPrune_ops criterion pr.2 lazy onlyGraph pr.1 t1 t' ht
      rw [e2, e1]

/-! ### C6: the depthwise post-pass invariant -/

theorem setGroups_varq (g : Graph) (i d : Nat) (n : String) :
    (g.setGroups i d).var? n = g.var? n := rfl

theorem postPassStep_elim (acc : Graph) (op : Op) (acc' : Graph)
    (h : postPassStep acc op = .ok acc') :
    (isDW op.type = false ∧ acc' = acc) ∨
    (isDW op.type = true ∧ ∃ f v d ds, filterInput op = some f ∧
      acc.var? f = some v ∧ v.shape = d :: ds ∧ acc' = acc.setGroups op.idx d) := by
  unfold postPassStep at h
  by_cases hdw : isDW op.type = true
  · rw [if_pos hdw] at h
    right
    split at h
    · exact absurd h (by simp)
    next f fs hf =>
      obtain ⟨v, hv, h⟩ := bind_ok h
      have hvq : acc.var? f = some v := by
        cases hq : acc.var? f with
        | none => rw [hq] at hv; simp [Option.elim] at hv
        | some w =>
            rw [hq] at hv
            simp only [Option.elim, Except.ok.injEq] at hv
            rw [hv]
      split at h
      · exact absurd h (by simp)
      next d ds hs =>
        simp only [Except.ok.injEq] at h
        refine ⟨hdw, f, v, d, ds, ?_, hvq, hs, h.symm⟩
        unfold filterInput
        rw [hf]
        rfl
  · rw [if_neg hdw] at h
    left
    simp only [Except.ok.injEq] at h
    exact ⟨by simpa using hdw, h.symm⟩

theorem postPass_go (l : List Op) :
    ∀ (acc g' : Graph),
      l.foldlM postPassStep acc = .ok g' →
      (l.map Op.idx).Nodup →
      g'.vars = acc.vars ∧
      (∀ op ∈ l, isDW op.type = true →
        ∃ f v, filterInput op = some f ∧ acc.var? f = some v ∧ v.shape ≠ [] ∧
          ∀ o' ∈ g'.ops, o'.idx = op.idx → o'.groups = v.shape.headD 0) ∧
      (∀ o' ∈ g'.ops, ∃ o ∈ acc.ops,
        (o'.idx = o.idx ∧ o'.type = o.type ∧ o'.ins = o.ins) ∧
        (o'.groups = o.groups ∨ ∃ op ∈ l, isDW op.type = true ∧ op.idx = o'.idx)) := by
  induction l with
  | nil =>
      intro acc g' h _
      simp only [List.foldlM_nil, pure, Except.pure, Except.ok.injEq] at h
      subst h
      exact ⟨rfl, by simp, fun o' ho' => ⟨o', ho', ⟨rfl, rfl, rfl⟩, Or.inl rfl⟩⟩
  | cons op l' ih =>
      intro acc g' h hnd
      rw [List.map_cons, List.nodup_cons] at hnd
      obtain ⟨hni, hnd'⟩ := hnd
      rw [List.foldlM_cons] at h
      obtain ⟨acc1, hstep, h⟩ := bind_ok h
      rcases postPassStep_elim acc op acc1 hstep with
        ⟨hndw, hacc⟩ | ⟨hdw, f, v, d, ds, hfi, hv, hs, hacc⟩
      · rw [hacc] at h
        obtain ⟨P1, P2, P3⟩ := ih _ g' h hnd'
        refine ⟨P1, ?_, ?_⟩
        · intro op0 hop0 hdw0
          rcases List.mem_cons.mp hop0 with rfl | hop0'
          · rw [hndw] at hdw0
            exact absurd hdw0 (by simp)
          · exact P2 op0 hop0' hdw0
        · intro o' ho'
          obtain ⟨o, ho, hsh, hg⟩ := P3 o' ho'
          refine ⟨o, ho, hsh, hg.imp id ?_⟩
          rintro ⟨op2, hop2, h1, h2⟩
          exact ⟨op2, List.mem_cons_of_mem _ hop2, h1, h2⟩
      · subst hacc
        obtain ⟨P1, P2, P3⟩ := ih _ g' h hnd'
        refine ⟨by rw [P1]; rfl, ?_, ?_⟩
        · intro op0 hop0 hdw0
          rcases List.mem_cons.mp hop0 with rfl | hop0'
          · refine ⟨f, v, hfi, hv, by simp [hs], ?_⟩
            intro o' ho' hidx
            obtain ⟨o1, ho1, ⟨hidx1, _, _⟩, hg⟩ := P3 o' ho'
            rcases hg with hgr | ⟨op2, hop2, _, hidx2⟩
            · obtain ⟨o0, ho0, ho1eq⟩ := List.mem_map.mp ho1
              by_cases hid : (o0.idx == op0.idx) = true
              · rw [if_pos hid] at ho1eq
                rw [hgr, ← ho1eq]
                simp [hs]
              · rw [if_neg hid] at ho1eq
                exfalso
                apply hid
                have h0 : o1.idx = o0.idx := by rw [← ho1eq]
                simp only [beq_iff_eq]
                rw [← h0, ← hidx1]
                exact hidx
            · exfalso
              apply hni
              refine List.mem_map.mpr ⟨op2, hop2, ?_⟩
              rw [hidx2]
              exact hidx
          · obtain ⟨f0, v0, hfi0, hv0, hs0, hall⟩ := P2 op0 hop0' hdw0
            rw [setGroups_varq] at hv0
            exact ⟨f0, v0, hfi0, hv0, hs0, hall⟩
        · intro o' ho'
          obtain ⟨o1, ho1, hsh, hg⟩ := P3 o' ho'
          obtain ⟨o0, ho0, ho1eq⟩ := List.mem_map.mp ho1
          by_cases hid : (o0.idx == op.idx) = true
          · rw [if_pos hid] at ho1eq
            subst ho1eq
            obtain ⟨hidx1, hty1, hins1⟩ := hsh
            have hidx1' : o'.idx = o0.idx := hidx1
            have hty1' : o'.type = o0.type := hty1
            have hins1' : o'.ins = o0.ins := hins1
            refine ⟨o0, ho0, ⟨hidx1', hty1', hins1'⟩,
              Or.inr ⟨op, List.mem_cons_self _ _, hdw, ?_⟩⟩
            rw [beq_iff_eq] at hid
            rw [hidx1']
            exact hid.symm
          · rw [if_neg hid] at ho1eq
            subst ho1eq
            refine ⟨o0, ho0, hsh, hg.imp id ?_⟩
            rintro ⟨op2, hop2, h1, h2⟩
            exact ⟨op2, List.mem_cons_of_mem _ hop2, h1, h2⟩

theorem postPass_spec (g g' : Graph)
    (h : postPass g = .ok g') (hnd : (g.ops.map Op.idx).Nodup) :
    g'.vars = g.vars ∧
    ∀ o' ∈ g'.ops, isDW o'.type = true →
      ∃ f v, filterInput o' = some f ∧ g'.var? f = some v ∧ v.shape ≠ [] ∧
        o'.groups = v.shape.headD 0 := by
  obtain ⟨P1, P2, P3⟩ := postPass_go g.ops g g' h hnd
  refine ⟨P1, ?_⟩
  intro o' ho' hdw'
  obtain ⟨o, ho, ⟨hidx, hty, hins⟩, _⟩ := P3 o' ho'
  have hdwo : isDW o.type = true := by rw [← hty]; exact hdw'
  obtain ⟨f, v, hfi, hv, hs, hall⟩ := P2 o ho hdwo
  refine ⟨f, v, ?_, ?_, hs, hall o' ho' hidx⟩
  · unfold filterInput at hfi ⊢
    rw [hins]
    exact hfi
  · show g'.var? f = some v
    unfold Graph.var? at hv ⊢
    rw [P1]
    exact hv

/-- C6: after a successful top-level `prune` on a graph whose operators have
distinct identities, every depthwise-convolution operator (forward or
gradient) of the returned program has its `groups` attribute equal to the
axis-0 size of its (possibly just-pruned) filter parameter's shape. -/
theorem C6_depthwise_groups (criterion : String) (programs : List Graph)
    (progIdx : Nat) (scope : Scope) (params : List String)
    (ratios : List (Nat × Nat)) (lazy onlyGraph buVal buShape : Bool)
    (out : List Graph × Nat × Scope × Option (List (String × BackupV)) ×
      Option (List (String × List Nat)) × List String)
    (g0 : Graph)
    (hg0 : programs[progIdx]? = some g0)
    (hnd : (g0.ops.map Op.idx).Nodup)
    (hok : prune criterion programs progIdx scope params ratios
      lazy onlyGraph buVal buShape = .ok out) :
    ∀ op ∈ (out.1.getD out.2.1 { ops := [], vars := [] }).ops,
      isDW op.type = true →
      ∃ f v, filterInput op = some f ∧
        (out.1.getD out.2.1 { ops := [], vars := [] }).var? f = some v ∧
        v.shape ≠ [] ∧ op.groups = v.shape.headD 0 := by
  unfold prune at hok
  rw [hg0] at hok
  obtain ⟨g, hg, hok1⟩ := bind_ok hok
  obtain ⟨res, hres, hok2⟩ := bind_ok hok1
  simp only [Option.elim, Except.ok.injEq] at hg
  subst hg
  simp only [Except.ok.injEq] at hok2
  subst hok2
  unfold pruneGraph at hres
  obtain ⟨st, hst, hres1⟩ := bind_ok hres
  obtain ⟨g', hpp, hres2⟩ := bind_ok hres1
  simp only [Except.ok.injEq] at hres2
  subst hres2
  have hops := pruneParameters_ops criterion _ params ratios lazy onlyGraph st hst
  have hnd2 : (st.graph.ops.map Op.idx).Nodup := by
    rw [hops]
    exact hnd
  obtain ⟨_, hinv⟩ := postPass_spec st.graph g' hpp hnd2
  have hget : ((programs ++ [g']).getD programs.length { ops := [], vars := [] }) = g' := by
    unfold List.getD
    simp
  simpa [hget] using hinv

/-- Witness for `C6_depthwise_groups`: pruning `dwGraph` (whose depthwise
operator starts with a stale `groups = 7`) with an empty request list
returns a program whose depthwise operator has `groups = 4`, the filter's
axis-0 size. -/
theorem C6_depthwise_groups_witness :
    ∃ f v, filterInput { dwOp with groups := 4 } = some f ∧
      dwGraphFixed.var? f = some v ∧ v.shape ≠ [] ∧
      ({ dwOp with groups := 4 } : Op).groups = v.shape.headD 0 :=
  C6_depthwise_groups "l1_norm" [dwGraph] 0 [] [] [] false false false false
    ([dwGraph, dwGraphFixed], 1, [], none, none, []) dwGraph rfl (by decide) rfl
    { dwOp with groups := 4 } (by decide) (by decide)

/-! ### C7: registry idempotence -/

theorem appendPruned_scope (st : PState) (axis : Nat) (n : String) :
    (st.appendPruned axis n).scope = st.scope := by
  unfold PState.appendPruned
  rcases axis with _ | _ | a <;> rfl

theorem foldlM_pred {σ α : Type} (P : σ → Prop) (f : σ → α → Except Unit σ)
    (l : List α)
    (hf : ∀ x ∈ l, ∀ t t', f t x = .ok t' → P t → P t') :
    ∀ s s', l.foldlM f s = .ok s' → P s → P s' := by
  induction l with
  | nil =>
      intro s s' h hs
      simp only [List.foldlM_nil, pure, Except.pure, Except.ok.injEq] at h
      rw [← h]
      exact hs
  | cons x xs ih =>
      intro s s' h hs
      rw [List.foldlM_cons] at h
      obtain ⟨t, h1, h2⟩ := bind_ok h
      exact ih (fun y hy => hf y (List.mem_cons_of_mem _ hy)) t s'
        h2 (hf x (by simp) s t h1 hs)

theorem scope_find_set_self (s : Scope) (n : String) (t' : Tensor) :
    ∀ t, Scope.find? s n = some t →
      Scope.find? (Scope.set s n t') n = some t' := by
  induction s with
  | nil => intro t h; simp [Scope.find?] at h
  | cons p rest ih =>
      intro t h
      obtain ⟨k, v⟩ := p
      by_cases hk : (k == n) = true
      · show Scope.find? (Scope.set ((k, v) :: rest) n t') n = some t'
        unfold Scope.set
        rw [List.map_cons]
        have hhead : (if ((((k, v) : String × Tensor)).1 == n) = true
            then (n, t') else (k, v)) = (n, t') := by
          simp [hk]
        rw [hhead]
        unfold Scope.find?
        rw [List.find?_cons_of_pos _ (by simp)]
        rfl
      · have hrest : Scope.find? rest n = some t := by
          unfold Scope.find? at h
          rw [List.find?_cons_of_neg _ (by simpa using hk)] at h
          exact h
        show Scope.find? (Scope.set ((k, v) :: rest) n t') n = some t'
        unfold Scope.set
        rw [List.map_cons]
        have hhead : (if ((((k, v) : String × Tensor)).1 == n) = true
            then (n, t') else (k, v)) = (k, v) := by
          simp [hk]
        rw [hhead]
        unfold Scope.find?
        rw [List.find?_cons_of_neg _ (by simpa using hk)]
        exact ih t hrest

theorem scope_find_set_ne (s : Scope) (n m : String) (t' : Tensor) (hne : m ≠ n) :
    Scope.find? (Scope.set s n t') m = Scope.find? s m := by
  induction s with
  | nil => rfl
  | cons p rest ih =>
      obtain ⟨k, v⟩ := p
      show Scope.find? (Scope.set ((k, v) :: rest) n t') m =
        Scope.find? ((k, v) :: rest) m
      unfold Scope.set
      rw [List.map_cons]
      by_cases hk : (k == n) = true
      · have hhead : (if ((((k, v) : String × Tensor)).1 == n) = true
            then (n, t') else (k, v)) = (n, t') := by
          simp [hk]
        rw [hhead]
        have hkm : (k == m) = false := by
          simp only [beq_iff_eq] at hk
          subst hk
          simpa [beq_eq_false_iff_ne] using fun he => hne he.symm
        unfold Scope.find?
        rw [List.find?_cons_of_neg _ (by simpa using fun he => hne he.symm),
          List.find?_cons_of_neg _ (by simpa using hkm)]
        exact ih
      · have hhead : (if ((((k, v) : String × Tensor)).1 == n) = true
            then (n, t') else (k, v)) = (k, v) := by
          simp [hk]
        rw [hhead]
        by_cases hkm : (k == m) = true
        · have hp : ((fun p => p.1 == m) ((k, v) : String × Tensor)) = true := hkm
          unfold Scope.find?
          rw [@List.find?_cons_of_pos (String × Tensor) (fun p => p.1 == m) (k, v) _ hp,
            @List.find?_cons_of_pos (String × Tensor) (fun p => p.1 == m) (k, v) _ hp]
        · unfold Scope.find?
          rw [List.find?_cons_of_neg _ (by simpa using hkm),
            List.find?_cons_of_neg _ (by simpa using hkm)]
          exact ih

theorem pruneTensor_axis_lt (t : Tensor) (idxs : List Nat) (axis : Nat) (lazy : Bool)
    (t' : Tensor) (h : pruneTensor t idxs axis lazy = .ok t') : axis < 2 := by
  rcases axis with _ | _ | a
  · omega
  · omega
  · simp [pruneTensor] at h

theorem pruneByIdxOne_elim (axis : Nat) (idxs : List Nat) (lazy : Bool)
    (st : PState) (n : String) (st' : PState)
    (h : pruneByIdxOne axis idxs lazy st n = .ok st') :
    ∃ t t', st.findTensor n = .ok t ∧ pruneTensor t idxs axis lazy = .ok t' ∧
      st'.scope = Scope.set st.scope n t' ∧
      ((axis = 0 ∧ st'.pruned0 = st.pruned0 ++ [n] ∧ st'.pruned1 = st.pruned1) ∨
       (axis = 1 ∧ st'.pruned1 = st.pruned1 ++ [n] ∧ st'.pruned0 = st.pruned0)) := by
  unfold pruneByIdxOne at h
  obtain ⟨t, h1, h⟩ := bind_ok h
  obtain ⟨t', h2, h⟩ := bind_ok h
  obtain ⟨shape, h3, h⟩ := bind_ok h
  obtain ⟨shape', h4, h⟩ := bind_ok h
  simp only [Except.ok.injEq] at h
  subst h
  have haxis := pruneTensor_axis_lt t idxs axis lazy t' h2
  refine ⟨t, t', h1, h2, ?_, ?_⟩
  · rw [appendPruned_scope]
  · rcases axis with _ | _ | a
    · left
      exact ⟨rfl, rfl, rfl⟩
    · right
      exact ⟨rfl, rfl, rfl⟩
    · omega

theorem pruneByIdxOneGraph_elim (axis k : Nat) (st : PState) (n : String) (st' : PState)
    (h : pruneByIdxOneGraph axis k st n = .ok st') :
    st'.scope = st.scope ∧
    ((axis = 0 ∧ st'.pruned0 = st.pruned0 ++ [n] ∧ st'.pruned1 = st.pruned1) ∨
     (axis = 1 ∧ st'.pruned1 = st.pruned1 ++ [n] ∧ st'.pruned0 = st.pruned0) ∨
     (2 ≤ axis ∧ st'.pruned0 = st.pruned0 ∧ st'.pruned1 = st.pruned1)) := by
  unfold pruneByIdxOneGraph at h
  obtain ⟨shape, h1, h⟩ := bind_ok h
  obtain ⟨shape', h2, h⟩ := bind_ok h
  simp only [Except.ok.injEq] at h
  subst h
  constructor
  · rw [appendPruned_scope]
  · rcases axis with _ | _ | a
    · exact Or.inl ⟨rfl, rfl, rfl⟩
    · exact Or.inr (Or.inl ⟨rfl, rfl, rfl⟩)
    · exact Or.inr (Or.inr ⟨by omega, rfl, rfl⟩)

/-- C7: within one invocation, `_prune_parameter_by_idx` is idempotent per
(primary parameter name, axis): (i) a request whose primary name is already
registered at the axis returns the state unchanged; (ii) a successful
request leaves the primary name registered at the axis; (iii) the first
(unregistered) request overwrites the stored tensor with the pruned value;
(iv) re-running a successful request is a no-op returning the same state;
and (v) `_prune_parameters` resets both registries on entry, so the
registry contents left by a previous invocation never affect a new one. -/
theorem C7_registry_idempotent (criterion : String) (st : PState) (primary : String)
    (rest : List String) (idxs : List Nat) (axis : Nat) (lazy onlyGraph : Bool)
    (reg : List String) (hreg : st.prunedAt axis = .ok reg) :
    (primary ∈ reg →
      pruneParameterByIdx st (primary :: rest) idxs axis lazy onlyGraph = .ok st) ∧
    (∀ st', pruneParameterByIdx st (primary :: rest) idxs axis lazy onlyGraph = .ok st' →
      ∃ reg', st'.prunedAt axis = .ok reg' ∧ primary ∈ reg') ∧
    (primary ∉ reg → primary ∉ rest → ∀ t t' st',
      st.findTensor primary = .ok t →
      pruneTensor t idxs axis lazy = .ok t' →
      pruneParameterByIdx st (primary :: rest) idxs axis lazy false = .ok st' →
      Scope.find? st'.scope primary = some t') ∧
    (∀ st', pruneParameterByIdx st (primary :: rest) idxs axis lazy onlyGraph = .ok st' →
      pruneParameterByIdx st' (primary :: rest) idxs axis lazy onlyGraph = .ok st') ∧
    (∀ params ratios l0 l1,
      pruneParameters criterion { st with pruned0 := l0, pruned1 := l1 }
          params ratios lazy onlyGraph =
        pruneParameters criterion st params ratios lazy onlyGraph) := by
  have haxis : axis = 0 ∨ axis = 1 := by
    rcases axis with _ | _ | a
    · exact Or.inl rfl
    · exact Or.inr rfl
    · simp [PState.prunedAt] at hreg
  have hmemAt : ∀ (u : PState) (m : String), axis = 0 → m ∈ u.pruned0 →
      ∃ r', u.prunedAt axis = .ok r' ∧ m ∈ r' := by
    intro u m h0 hm
    subst h0
    exact ⟨u.pruned0, rfl, hm⟩
  have hmemAt1 : ∀ (u : PState) (m : String), axis = 1 → m ∈ u.pruned1 →
      ∃ r', u.prunedAt axis = .ok r' ∧ m ∈ r' := by
    intro u m h1 hm
    subst h1
    exact ⟨u.pruned1, rfl, hm⟩
  have hskip : primary ∈ reg →
      pruneParameterByIdx st (primary :: rest) idxs axis lazy onlyGraph = .ok st := by
    intro hmem
    simp only [pruneParameterByIdx]
    rw [hreg]
    simp [Bind.bind, Except.bind, hmem]
  have hrec : ∀ st', pruneParameterByIdx st (primary :: rest) idxs axis lazy onlyGraph =
      .ok st' → ∃ reg', st'.prunedAt axis = .ok reg' ∧ primary ∈ reg' := by
    intro st' h
    simp only [pruneParameterByIdx] at h
    rw [hreg] at h
    simp only [Bind.bind, Except.bind] at h
    by_cases hmem : primary ∈ reg
    · rw [if_pos hmem] at h
      simp only [Except.ok.injEq] at h
      subst h
      exact ⟨reg, hreg, hmem⟩
    · rw [if_neg hmem] at h
      have hP : ∀ (u u' : PState),
          ((axis = 0 → primary ∈ u.pruned0) ∧ (axis = 1 → primary ∈ u.pruned1)) →
          (∃ s0, u'.pruned0 = u.pruned0 ++ s0) ∧ (∃ s1, u'.pruned1 = u.pruned1 ++ s1) →
          ((axis = 0 → primary ∈ u'.pruned0) ∧ (axis = 1 → primary ∈ u'.pruned1)) := by
        rintro u u' ⟨hu0, hu1⟩ ⟨⟨s0, hs0⟩, ⟨s1, hs1⟩⟩
        constructor
        · intro h0
          rw [hs0]
          exact List.mem_append_left _ (hu0 h0)
        · intro h1
          rw [hs1]
          exact List.mem_append_left _ (hu1 h1)
      cases onlyGraph with
      | true =>
          rw [if_pos rfl] at h
          rw [List.foldlM_cons] at h
          obtain ⟨st1, h1, h2⟩ := bind_ok h
          obtain ⟨_, hcase⟩ := pruneByIdxOneGraph_elim axis idxs.length st primary st1 h1
          have hbase : (axis = 0 → primary ∈ st1.pruned0) ∧
              (axis = 1 → primary ∈ st1.pruned1) := by
            rcases hcase with ⟨h0, ha, _⟩ | ⟨h1', ha, _⟩ | ⟨h2', _, _⟩
            · exact ⟨fun _ => by rw [ha]; simp, fun hax => by omega⟩
            · exact ⟨fun hax => by omega, fun _ => by rw [ha]; simp⟩
            · omega
          have hfin := foldlM_pred
            (fun u => (axis = 0 → primary ∈ u.pruned0) ∧ (axis = 1 → primary ∈ u.pruned1))
            _ rest
            (fun x _ t t' htx hPt => by
              obtain ⟨_, hcase'⟩ := pruneByIdxOneGraph_elim axis idxs.length t x t' htx
              refine hP t t' hPt ⟨?_, ?_⟩
              · rcases hcase' with ⟨_, ha, hb⟩ | ⟨_, ha, hb⟩ | ⟨_, ha, hb⟩
                · exact ⟨[x], ha⟩
                · exact ⟨[], by simpa using hb⟩
                · exact ⟨[], by simpa using ha⟩
              · rcases hcase' with ⟨_, ha, hb⟩ | ⟨_, ha, hb⟩ | ⟨_, ha, hb⟩
                · exact ⟨[], by simpa using hb⟩
                · exact ⟨[x], ha⟩
                · exact ⟨[], by simpa using hb⟩)
            st1 st' h2 hbase
          rcases haxis with h0 | h1
          · exact hmemAt st' primary h0 (hfin.1 h0)
          · exact hmemAt1 st' primary h1 (hfin.2 h1)
      | false =>
          rw [if_neg (by simp)] at h
          rw [List.foldlM_cons] at h
          obtain ⟨st1, h1, h2⟩ := bind_ok h
          obtain ⟨t, t', _, _, _, hcase⟩ := pruneByIdxOne_elim axis idxs lazy st primary st1 h1
          have hbase : (axis = 0 → primary ∈ st1.pruned0) ∧
              (axis = 1 → primary ∈ st1.pruned1) := by
            rcases hcase with ⟨h0, ha, _⟩ | ⟨h1', ha, _⟩
            · exact ⟨fun _ => by rw [ha]; simp, fun hax => by omega⟩
            · exact ⟨fun hax => by omega, fun _ => by rw [ha]; simp⟩
          have hfin := foldlM_pred
            (fun u => (axis = 0 → primary ∈ u.pruned0) ∧ (axis = 1 → primary ∈ u.pruned1))
            _ rest
            (fun x _ t t' htx hPt => by
              obtain ⟨_, _, _, _, _, hcase'⟩ := pruneByIdxOne_elim axis idxs lazy t x t' htx
              refine hP t t' hPt ⟨?_, ?_⟩
              · rcases hcase' with ⟨_, ha, hb⟩ | ⟨_, ha, hb⟩
                · exact ⟨[x], ha⟩
                · exact ⟨[], by simpa using hb⟩
              · rcases hcase' with ⟨_, ha, hb⟩ | ⟨_, ha, hb⟩
                · exact ⟨[], by simpa using hb⟩
                · exact ⟨[x], ha⟩)
            st1 st' h2 hbase
          rcases haxis with h0 | h1
          · exact hmemAt st' primary h0 (hfin.1 h0)
          · exact hmemAt1 st' primary h1 (hfin.2 h1)
  refine ⟨hskip, hrec, ?_, ?_, ?_⟩
  · intro hnmem hnrest t t' st' ht ht' h
    simp only [pruneParameterByIdx] at h
    rw [hreg] at h
    simp only [Bind.bind, Except.bind] at h
    rw [if_neg hnmem, if_neg (by simp)] at h
    rw [List.foldlM_cons] at h
    obtain ⟨st1, h1, h2⟩ := bind_ok h
    obtain ⟨t0, t0', ht0, ht0', hsc, _⟩ := pruneByIdxOne_elim axis idxs lazy st primary st1 h1
    rw [ht] at ht0
    simp only [Except.ok.injEq] at ht0
    subst ht0
    rw [ht'] at ht0'
    simp only [Except.ok.injEq] at ht0'
    subst ht0'
    have hfind1 : Scope.find? st1.scope primary = some t' := by
      rw [hsc]
      refine scope_find_set_self st.scope primary t' t ?_
      unfold PState.findTensor at ht
      cases hq : Scope.find? st.scope primary with
      | none => rw [hq] at ht; simp at ht
      | some w =>
          rw [hq] at ht
          simp only [Except.ok.injEq] at ht
          rw [ht]
    have hpres := foldlM_proj (fun u => Scope.find? u.scope primary) _ rest
      (fun x hx u u' hux => by
        obtain ⟨tx, tx', _, _, hscx, _⟩ := pruneByIdxOne_elim axis idxs lazy u x u' hux
        show Scope.find? u'.scope primary = Scope.find? u.scope primary
        rw [hscx]
        exact scope_find_set_ne u.scope x primary tx'
          (fun he => hnrest (he ▸ hx)))
      st1 st' h2
    have hpres' : Scope.find? st'.scope primary = Scope.find? st1.scope primary := hpres
    rw [hpres', hfind1]
  · intro st' h
    obtain ⟨reg', hreg', hmem'⟩ := hrec st' h
    simp only [pruneParameterByIdx]
    rw [hreg']
    simp [Bind.bind, Except.bind, hmem']
  · intro params ratios l0 l1
    rfl

/-- Witness for `C7_registry_idempotent` on a one-parameter state. -/
theorem C7_registry_idempotent_witness :
    ("p" ∈ ([] : List String) →
      pruneParameterByIdx pstC7 ["p"] [1] 0 false false = .ok pstC7) ∧
    (∀ st', pruneParameterByIdx pstC7 ["p"] [1] 0 false false = .ok st' →
      ∃ reg', st'.prunedAt 0 = .ok reg' ∧ "p" ∈ reg') ∧
    ("p" ∉ ([] : List String) → "p" ∉ ([] : List String) → ∀ t t' st',
      pstC7.findTensor "p" = .ok t →
      pruneTensor t [1] 0 false = .ok t' →
      pruneParameterByIdx pstC7 ["p"] [1] 0 false false = .ok st' →
      Scope.find? st'.scope "p" = some t') ∧
    (∀ st', pruneParameterByIdx pstC7 ["p"] [1] 0 false false = .ok st' →
      pruneParameterByIdx st' ["p"] [1] 0 false false = .ok st') ∧
    (∀ params ratios l0 l1,
      pruneParameters "l1_norm" { pstC7 with pruned0 := l0, pruned1 := l1 }
          params ratios false false =
        pruneParameters "l1_norm" pstC7 params ratios false false) :=
  C7_registry_idempotent "l1_norm" pstC7 "p" [] [1] 0 false false [] rfl

/-! ### C9: out-of-range index handling -/

/-- C9 (amended): (i) an out-of-range index while pruning a dependent
tensor through `_prune_parameter_by_idx` (axis 0 or axis 1) raises an
uncaught `IndexError` that aborts the entire call — no logging, no skip;
(ii) only the ratio-driven group prune `_prune_filters_by_ratio` catches
the error: there it logs the failing parameter's name and *continues*,
writing the previously pruned array into the failing parameter's slot, as
demonstrated on the two-parameter state `st9` where the accumulator `"a"`
ends up holding the pruned value of `"p"` and the log records `"a"`. -/
theorem C9_index_error_handling :
    (∀ (st : PState) (primary : String) (rest : List String) (idxs : List Nat)
        (lazy : Bool) (t : Tensor) (i : Nat),
      primary ∉ st.pruned0 → st.findTensor primary = .ok t → i ∈ idxs →
      t.length ≤ i →
      pruneParameterByIdx st (primary :: rest) idxs 0 lazy false = .error ()) ∧
    (∀ (st : PState) (primary : String) (rest : List String) (idxs : List Nat)
        (lazy : Bool) (t : Tensor) (i : Nat),
      primary ∉ st.pruned1 → st.findTensor primary = .ok t → i ∈ idxs →
      dim1 t ≤ i →
      pruneParameterByIdx st (primary :: rest) idxs 1 lazy false = .error ()) ∧
    ((pruneFiltersByRatio "l1_norm" st9 ["p", "a"] 1 2 false false).map
        (fun r => (r.2, Scope.find? r.1.scope "a", r.1.log)) =
      .ok (some [1], some [[[5]]], ["a"])) := by
  refine ⟨?_, ?_, ?_⟩
  · intro st primary rest idxs lazy t i hp0 hft hi hge
    have hall : (idxs.all fun j => decide (j < t.length)) = false := by
      rw [List.all_eq_false]
      exact ⟨i, hi, by simpa using hge⟩
    have hpt : pruneTensor t idxs 0 lazy = .error () := by
      simp [pruneTensor, hall]
    have hstep : pruneByIdxOne 0 idxs lazy st primary = .error () := by
      unfold pruneByIdxOne
      rw [hft]
      simp only [Bind.bind, Except.bind, hpt]
    simp only [pruneParameterByIdx, PState.prunedAt]
    simp only [Bind.bind, Except.bind]
    rw [if_neg hp0, if_neg (by simp)]
    rw [List.foldlM_cons, hstep]
    simp [Bind.bind, Except.bind]
  · intro st primary rest idxs lazy t i hp1 hft hi hge
    have hall : (idxs.all fun j => decide (j < dim1 t)) = false := by
      rw [List.all_eq_false]
      exact ⟨i, hi, by simpa using hge⟩
    have hpt : pruneTensor t idxs 1 lazy = .error () := by
      simp only [pruneTensor]
      rw [show ((t.headD []).length) = dim1 t from rfl, hall]
      rfl
    have hstep : pruneByIdxOne 1 idxs lazy st primary = .error () := by
      unfold pruneByIdxOne
      rw [hft]
      simp only [Bind.bind, Except.bind, hpt]
    simp only [pruneParameterByIdx, PState.prunedAt]
    simp only [Bind.bind, Except.bind]
    rw [if_neg hp1, if_neg (by simp)]
    rw [List.foldlM_cons, hstep]
    simp [Bind.bind, Except.bind]
  · rfl

/-- Witness for `C9_index_error_handling`: index 5 is out of range for the
two-channel tensor of `"p"`, and the dependent-path prune aborts. -/
theorem C9_index_error_handling_witness :
    pruneParameterByIdx st9 ["p"] [5] 0 false false = .error () :=
  C9_index_error_handling.1 st9 "p" [] [5] false [[[5]], [[1]]] 5
    (by decide) (by decide) (by decide) (by decide)

/-- Counterexample to C9 as stated: the multi-parameter call
`prune(["w1", "w3"], [1/2, 1/2])` on graph `g9` aborts with an error when
`w1`'s propagation reaches `w2` with out-of-range index 1 — the second
requested parameter `w3` is never processed and no pruned program is
returned, so the enclosing call does not "continue with the remaining
parameters". -/
theorem C9_counterexample :
    prune "l1_norm" [g9] 0 s9 ["w1", "w3"] [(1, 2), (1, 2)]
      false false false false = .error () := by
  rfl

/-! ### C3: properties of the forward search -/

/-- Membership in `_get_next_unvisited_op`'s result implies: not a
backward operator, and a consumer of one of the operator's outputs. -/
theorem mem_getNextUnvisitedOp {g : Graph} {visited : List Nat} {op o : Op}
    (h : o ∈ getNextUnvisitedOp g visited op) :
    o.isBwd = false ∧ o ∈ g.nextOps op := by
  unfold getNextUnvisitedOp at h
  have h2 := List.mem_filter.mp h
  refine ⟨?_, h2.1⟩
  have h3 := h2.2
  rw [Bool.and_eq_true] at h3
  simpa using h3.2

/-- The push pattern preserves the traversal invariants: the path stays
backward-free with pairwise distinct indices all marked visited, the
worklist stays inside the path, the path only grows, and every new path
entry comes from the pushed candidates. -/
theorem pushOps_basic :
    ∀ (os stack : List Op) (visited : List Nat) (path s' : List Op)
      (v' : List Nat) (p' : List Op),
      pushOps os (stack, visited, path) = (s', v', p') →
      (∀ o ∈ os, o.isBwd = false) →
      (∀ o ∈ path, o.isBwd = false) →
      (path.map Op.idx).Nodup →
      (∀ o ∈ path, o.idx ∈ visited) →
      (∀ o ∈ stack, o ∈ path) →
      (∀ o ∈ p', o.isBwd = false) ∧
      (p'.map Op.idx).Nodup ∧
      (∀ o ∈ p', o.idx ∈ v') ∧
      (∀ o ∈ s', o ∈ p') ∧
      (∀ o ∈ path, o ∈ p') ∧
      (∀ o ∈ p', o ∈ path ∨ o ∈ os) := by
  intro os
  induction os with
  | nil =>
      intro stack visited path s' v' p' h hos h1 h2 h3 h4
      simp only [pushOps] at h
      injection h with he1 h23
      injection h23 with he2 he3
      subst he1; subst he2; subst he3
      exact ⟨h1, h2, h3, h4, fun o ho => ho, fun o ho => Or.inl ho⟩
  | cons o os ih =>
      intro stack visited path s' v' p' h hos h1 h2 h3 h4
      simp only [pushOps] at h
      by_cases hv : visited.contains o.idx = true
      · rw [if_pos hv] at h
        have res := ih stack visited path s' v' p' h
          (fun x hx => hos x (List.mem_cons_of_mem _ hx)) h1 h2 h3 h4
        exact ⟨res.1, res.2.1, res.2.2.1, res.2.2.2.1, res.2.2.2.2.1,
          fun x hx => (res.2.2.2.2.2 x hx).imp id (List.mem_cons_of_mem _)⟩
      · rw [if_neg hv] at h
        have hob : o.isBwd = false := hos o (List.mem_cons_self _ _)
        have hnidx : o.idx ∉ visited := by simpa using hv
        have hA1 : ∀ x ∈ path ++ [o], x.isBwd = false := by
          intro x hx
          rcases List.mem_append.mp hx with hx | hx
          · exact h1 x hx
          · obtain rfl := List.mem_singleton.mp hx
            exact hob
        have hA2 : ((path ++ [o]).map Op.idx).Nodup := by
          simp only [List.map_append, List.map_cons, List.map_nil]
          refine List.Nodup.append h2 (List.nodup_singleton _) ?_
          intro a ha hb
          obtain rfl := List.mem_singleton.mp hb
          obtain ⟨x, hxmem, hxidx⟩ := List.mem_map.mp ha
          exact hnidx (hxidx ▸ h3 x hxmem)
        have hA3 : ∀ x ∈ path ++ [o], x.idx ∈ visited ++ [o.idx] := by
          intro x hx
          rcases List.mem_append.mp hx with hx | hx
          · exact List.mem_append_left _ (h3 x hx)
          · obtain rfl := List.mem_singleton.mp hx
            exact List.mem_append_right _ (List.mem_singleton_self _)
        have hA4 : ∀ x ∈ stack ++ [o], x ∈ path ++ [o] := by
          intro x hx
          rcases List.mem_append.mp hx with hx | hx
          · exact List.mem_append_left _ (h4 x hx)
          · exact List.mem_append_right _ hx
        have res := ih (stack ++ [o]) (visited ++ [o.idx]) (path ++ [o]) s' v' p' h
          (fun x hx => hos x (List.mem_cons_of_mem _ hx)) hA1 hA2 hA3 hA4
        refine ⟨res.1, res.2.1, res.2.2.1, res.2.2.2.1, ?_, ?_⟩
        · intro x hx
          exact res.2.2.2.2.1 x (List.mem_append_left _ hx)
        · intro x hx
          rcases res.2.2.2.2.2 x hx with hx' | hx'
          · rcases List.mem_append.mp hx' with hpp | hpp
            · exact Or.inl hpp
            · obtain rfl := List.mem_singleton.mp hpp
              exact Or.inr (List.mem_cons_self _ _)
          · exact Or.inr (List.mem_cons_of_mem _ hx')

/-- A `foldl` step that preserves a predicate preserves it over the whole
fold. -/
theorem foldl_pred {α β : Type} (P : β → Prop) (f : β → α → β)
    (hf : ∀ b a, P b → P (f b a)) :
    ∀ (l : List α) (b : β), P b → P (l.foldl f b) := by
  intro l
  induction l with
  | nil => intro b hb; exact hb
  | cons a l ih => intro b hb; exact ih (f b a) (hf b a hb)

/-- The seeding phase for a variable start node establishes the traversal
invariants. -/
theorem fsInitVar_inv (g : Graph) (n : String) :
    (∀ o ∈ (fsInitVar g n).2.2, o.isBwd = false) ∧
    ((fsInitVar g n).2.2.map Op.idx).Nodup ∧
    (∀ o ∈ (fsInitVar g n).2.2, o.idx ∈ (fsInitVar g n).2.1) ∧
    (∀ o ∈ (fsInitVar g n).1, o ∈ (fsInitVar g n).2.2) := by
  unfold fsInitVar
  refine foldl_pred
    (fun t : List Op × List Nat × List Op =>
      (∀ o ∈ t.2.2, o.isBwd = false) ∧
      (t.2.2.map Op.idx).Nodup ∧
      (∀ o ∈ t.2.2, o.idx ∈ t.2.1) ∧
      (∀ o ∈ t.1, o ∈ t.2.2)) _ ?_ g.ops ([], [], [])
    ⟨fun o ho => absurd ho (List.not_mem_nil o), List.nodup_nil,
      fun o ho => absurd ho (List.not_mem_nil o),
      fun o ho => absurd ho (List.not_mem_nil o)⟩
  intro b a hb
  by_cases hc : (!a.isBwd && a.allInputs.contains n) = true
  · obtain ⟨s, v, p⟩ := b
    simp only [hc, if_true]
    obtain ⟨hb1, hb2, hb3, hb4⟩ := hb
    have res := pushOps_basic (getNextUnvisitedOp g v a) s (v ++ [a.idx]) p
      (pushOps (getNextUnvisitedOp g v a) (s, v ++ [a.idx], p)).1
      (pushOps (getNextUnvisitedOp g v a) (s, v ++ [a.idx], p)).2.1
      (pushOps (getNextUnvisitedOp g v a) (s, v ++ [a.idx], p)).2.2 rfl
      (fun o ho => (mem_getNextUnvisitedOp ho).1) hb1 hb2
      (fun o ho => List.mem_append_left _ (hb3 o ho)) hb4
    exact ⟨res.1, res.2.1, res.2.2.1, res.2.2.2.1⟩
  · simp only [hc, if_false]
    exact hb

/-- The seeding phase for an operator start node establishes the traversal
invariants. -/
theorem fsInitOp_inv (g : Graph) (op : Op) :
    (∀ o ∈ (fsInitOp g op).2.2, o.isBwd = false) ∧
    ((fsInitOp g op).2.2.map Op.idx).Nodup ∧
    (∀ o ∈ (fsInitOp g op).2.2, o.idx ∈ (fsInitOp g op).2.1) ∧
    (∀ o ∈ (fsInitOp g op).1, o ∈ (fsInitOp g op).2.2) := by
  have res := pushOps_basic (getNextUnvisitedOp g [] op) [] [] []
    (fsInitOp g op).1 (fsInitOp g op).2.1 (fsInitOp g op).2.2 rfl
    (fun o ho => (mem_getNextUnvisitedOp ho).1)
    (fun o ho => absurd ho (List.not_mem_nil o)) List.nodup_nil
    (fun o ho => absurd ho (List.not_mem_nil o))
    (fun o ho => absurd ho (List.not_mem_nil o))
  exact ⟨res.1, res.2.1, res.2.2.1, res.2.2.2.1⟩

/-- The while loop preserves the traversal invariants and the justification
property: every operator of the final path is either seeded or a consumer
of a non-boundary operator of the final path. -/
theorem fsLoop_main (g : Graph) (path0 : List Op) :
    ∀ (fuel : Nat) (stack : List Op) (visited : List Nat) (path : List Op),
      (∀ o ∈ path, o.isBwd = false) →
      (path.map Op.idx).Nodup →
      (∀ o ∈ path, o.idx ∈ visited) →
      (∀ o ∈ stack, o ∈ path) →
      (∀ o ∈ path, o ∈ path0 ∨ ∃ o' ∈ path,
        isSearchBoundary o'.type = false ∧ o ∈ g.nextOps o') →
      (∀ o ∈ fsLoop g fuel stack visited path, o.isBwd = false) ∧
      ((fsLoop g fuel stack visited path).map Op.idx).Nodup ∧
      (∀ o ∈ fsLoop g fuel stack visited path,
        o ∈ path0 ∨ ∃ o' ∈ fsLoop g fuel stack visited path,
          isSearchBoundary o'.type = false ∧ o ∈ g.nextOps o') := by
  intro fuel
  induction fuel with
  | zero =>
      intro stack visited path h1 h2 h3 h4 h5
      exact ⟨h1, h2, h5⟩
  | succ fuel ih =>
      intro stack visited path h1 h2 h3 h4 h5
      cases stack with
      | nil => exact ⟨h1, h2, h5⟩
      | cons top rest =>
          by_cases hb : isSearchBoundary top.type = true
          · have heq : fsLoop g (fuel + 1) (top :: rest) visited path
                = fsLoop g fuel rest visited path := by
              simp [fsLoop, hb]
            rw [heq]
            exact ih rest visited path h1 h2 h3
              (fun o ho => h4 o (List.mem_cons_of_mem _ ho)) h5
          · have hbf : isSearchBoundary top.type = false := by
              revert hb
              cases isSearchBoundary top.type <;> simp
            set pr := pushOps (getNextUnvisitedOp g visited top) (rest, visited, path)
              with hprdef
            have heq : fsLoop g (fuel + 1) (top :: rest) visited path
                = fsLoop g fuel pr.1 pr.2.1 pr.2.2 := by
              simp only [fsLoop]
              rw [if_neg hb]
            have hpp := pushOps_basic (getNextUnvisitedOp g visited top) rest visited path
              pr.1 pr.2.1 pr.2.2 rfl
              (fun o ho => (mem_getNextUnvisitedOp ho).1)
              h1 h2 h3 (fun o ho => h4 o (List.mem_cons_of_mem _ ho))
            obtain ⟨B1, B2, B3, B4, Bmono, Bprov⟩ := hpp
            have htop : top ∈ pr.2.2 := Bmono top (h4 top (List.mem_cons_self _ _))
            have hA5 : ∀ o ∈ pr.2.2, o ∈ path0 ∨ ∃ o' ∈ pr.2.2,
                isSearchBoundary o'.type = false ∧ o ∈ g.nextOps o' := by
              intro o ho
              rcases Bprov o ho with hop | hos
              · rcases h5 o hop with hseed | ⟨o', ho', hc⟩
                · exact Or.inl hseed
                · exact Or.inr ⟨o', Bmono o' ho', hc⟩
              · exact Or.inr ⟨top, htop, hbf, (mem_getNextUnvisitedOp hos).2⟩
            rw [heq]
            exact ih pr.1 pr.2.1 pr.2.2 B1 B2 B3 B4 hA5

/-- C3: the forward search returns a path without backward operators, with
pairwise distinct operator indices (each operator appears at most once),
in which every operator is either produced by the seeding phase or is a
consumer of a non-boundary operator of the path; a boundary-typed operator
popped from the FIFO worklist contributes no successors.  Optimizer
operators are NOT excluded (the loop filters only `is_bwd_op`, not
`is_opt_op`): see the counterexample. -/
theorem C3_forward_search (g : Graph) (node : Node) :
    (∀ o ∈ forwardSearchRelatedOp g node, o.isBwd = false) ∧
    ((forwardSearchRelatedOp g node).map Op.idx).Nodup ∧
    (∀ o ∈ forwardSearchRelatedOp g node,
      o ∈ initPath g node ∨
      ∃ o' ∈ forwardSearchRelatedOp g node,
        isSearchBoundary o'.type = false ∧ o ∈ g.nextOps o') ∧
    (∀ (fuel : Nat) (top : Op) (rest : List Op) (visited : List Nat)
      (path : List Op),
      isSearchBoundary top.type = true →
      fsLoop g (fuel + 1) (top :: rest) visited path
        = fsLoop g fuel rest visited path) := by
  have main :
      (∀ o ∈ forwardSearchRelatedOp g node, o.isBwd = false) ∧
      ((forwardSearchRelatedOp g node).map Op.idx).Nodup ∧
      (∀ o ∈ forwardSearchRelatedOp g node,
        o ∈ initPath g node ∨
        ∃ o' ∈ forwardSearchRelatedOp g node,
          isSearchBoundary o'.type = false ∧ o ∈ g.nextOps o') := by
    cases node with
    | var n =>
        have hi := fsInitVar_inv g n
        exact fsLoop_main g ((fsInitVar g n).2.2) (g.ops.length + 1)
          (fsInitVar g n).1 (fsInitVar g n).2.1 (fsInitVar g n).2.2
          hi.1 hi.2.1 hi.2.2.1 hi.2.2.2 (fun o ho => Or.inl ho)
    | op o =>
        have hi := fsInitOp_inv g o
        exact fsLoop_main g ((fsInitOp g o).2.2) (g.ops.length + 1)
          (fsInitOp g o).1 (fsInitOp g o).2.1 (fsInitOp g o).2.2
          hi.1 hi.2.1 hi.2.2.1 hi.2.2.2 (fun o ho => Or.inl ho)
  refine ⟨main.1, main.2.1, main.2.2, ?_⟩
  intro fuel top rest visited path hbb
  simp [fsLoop, hbb]

/-- Witness for `C3_forward_search`: on the fixture graph the search from
tensor `"t"` yields a backward-free path containing `opB`, with distinct
indices. -/
theorem C3_forward_search_witness :
    opB ∈ forwardSearchRelatedOp gOpt (.var "t") ∧ opB.isBwd = false ∧
    ((forwardSearchRelatedOp gOpt (.var "t")).map Op.idx).Nodup :=
  ⟨by decide,
   (C3_forward_search gOpt (.var "t")).1 opB (by decide),
   (C3_forward_search gOpt (.var "t")).2.1⟩

/-- Counterexample to C3 as stated: the search filters only backward
operators, so the optimizer operator `opB` (`sgd`, `is_opt_op` true)
appears in the result. -/
theorem C3_counterexample :
    forwardSearchRelatedOp gOpt (.var "t") = [opB] ∧ opB.isOpt = true := by
  exact ⟨by decide, rfl⟩

end Pslim
